import Mathlib

/-!
Verification development for the `pretty` terminal text-formatting library.

The library represents an in-progress text as a doubly linked chain of string
fragments (`Text` nodes with fields `S`, `Next`, `Prev`) and applies formatters
(`LineWrap`, `Wrap`, `Indent`, ...) that mutate the chain in place.

Embedding conventions:
* Go strings are modelled as `List Char` (`Str`).  Go indexes strings by byte
  while `unicode.IsSpace` decodes runes; on the ASCII data exercised here the
  byte index and the character index coincide, so a character-level model is
  faithful for everything stated below.
* The pointer-linked chain is modelled by an explicit heap: a list of `Text`
  records addressed by position, with `Next`/`Prev` as `Option` addresses.
  Chain operations are heap transformers translated statement-by-statement
  from `text.go`; pointer walks (`Head`, `Tail`) take explicit fuel, and the
  well-formedness predicate `chainB` guarantees the fuel `heap size + 1` is
  always enough.
* Go `panic` is modelled by `Except`: each guard of `Split`, and each slice
  bounds check inside `LineWrap`, becomes an explicit `.error` branch.
* `LineWrap` iterates over the fragment sequence mutating it locally through
  `Split`/`Insert`; the wrap pass is modelled on the fragment sequence itself,
  with the effect of `Split(spaceAt)`, the two trims and `Insert("\n")`
  translated to the corresponding local edit of the sequence
  (`s` becomes `trimRight s[:spaceAt]`, `"\n"`, `trimLeft s[spaceAt:]`), and
  the loop resuming at the inserted `"\n"` fragment, exactly as the cursor
  `at = at.Next` does in `helpers.go`.
-/

namespace Pretty

/-- Go strings, modelled as lists of characters. -/
abbrev Str := List Char

/-- `unicode.IsSpace`: the Unicode White_Space property, as implemented in Go's
`unicode` package (ASCII spaces, Latin-1 NEL and NBSP, and the higher
White_Space code points). -/
def goIsSpace (c : Char) : Bool :=
  (0x09 ≤ c.toNat && c.toNat ≤ 0x0d) || c = ' ' ||
    c.toNat = 0x85 || c.toNat = 0xa0 || c.toNat = 0x1680 ||
    (0x2000 ≤ c.toNat && c.toNat ≤ 0x200a) ||
    c.toNat = 0x2028 || c.toNat = 0x2029 || c.toNat = 0x202f ||
    c.toNat = 0x205f || c.toNat = 0x3000

/-- Membership in the cutset `" \t"` used by the two trims in `LineWrap`. -/
def isCutST (c : Char) : Bool := c = ' ' || c = '\t'

/-- `strings.TrimLeft(s, " \t")`. -/
def trimLeftST (s : Str) : Str := s.dropWhile isCutST

/-- `strings.TrimRight(s, " \t")`. -/
def trimRightST (s : Str) : Str := (s.reverse.dropWhile isCutST).reverse

/-- `strings.IndexByte(s, '\n')`, as an optional index. -/
def strIndexNL : Str → Option Nat
  | [] => none
  | c :: r => if c = '\n' then some 0 else (strIndexNL r).map (· + 1)

/-- `strings.LastIndexFunc(s, unicode.IsSpace)`, as an optional index. -/
def lastSpaceIdx : Str → Option Nat
  | [] => none
  | c :: r =>
    match lastSpaceIdx r with
    | some i => some (i + 1)
    | none => if goIsSpace c then some 0 else none

/-- The lines of a text: maximal runs of characters between `'\n'`s.  A text
ending in `'\n'` has a final empty line, mirroring `strings.Split` on `"\n"`. -/
def linesNL : Str → List Str
  | [] => [[]]
  | c :: rest =>
    if c = '\n' then [] :: linesNL rest
    else
      match linesNL rest with
      | [] => [[c]]
      | l :: ls => (c :: l) :: ls

/-- `true` when the text contains no newline character. -/
def noNLB (s : Str) : Bool := s.all (fun c => !(c = '\n' : Bool))

/-! ### The `LineWrap(width)` formatter (`helpers.go`)

The Go loop walks the chain fragment by fragment with a running column
counter `col`:

* `nlAt` is the index of the first `'\n'` in the fragment (or its length);
* `col += nlAt; overflow := (width - col) * -1`; no overflow means `continue`;
* otherwise it searches `at.S[:nlAt-overflow+1]` for the last whitespace;
  none found means `continue` (never break a word);
* otherwise `Split(spaceAt)`, trim the right end of the left part and the left
  end of the right part, `Insert("\n")` between them, and reset `col` to 0.

Go panics are explicit `.error`s:
* `sliceRange`: the slice `at.S[:nlAt-overflow+1]` with an out-of-range bound;
* `splitHigh` / `splitLow`: the two guards of `Split` (`n > len(t.S)`,
  `n <= 0`).  `Split`'s no-op case `n == len(S) || len(S) == 0` is unreachable
  from this call site because `spaceAt < nlAt - overflow + 1 ≤ nlAt ≤ len(S)`,
  so it is not modelled here.

The loop is driven by fuel; `wrapFuel` below strictly dominates the step count
of the Go loop, so the `outOfFuel` branch is a model artifact that the proofs
never rely on (every theorem below either supplies a concrete run or is
conditioned on a normal `.ok` result). -/

inductive WrapPanicKind where
  | sliceRange
  | splitHigh
  | splitLow
  | outOfFuel
  deriving DecidableEq, Repr

/-- One pass of the `LineWrap` loop over the remaining fragments, returning
the final fragment sequence (or the Go panic it runs into). -/
def lineWrapLoop (width : Int) : Nat → Int → List Str → Except WrapPanicKind (List Str)
  | 0, _, _ => .error .outOfFuel
  | _ + 1, _, [] => .ok []
  | fuel + 1, col, s :: rest =>
    let nlAt : Nat := (strIndexNL s).getD s.length
    let col1 : Int := col + nlAt
    let overflow : Int := (width - col1) * (-1)
    if overflow ≤ 0 then
      Except.map (fun out => s :: out) (lineWrapLoop width fuel col1 rest)
    else
      let hi : Int := (nlAt : Int) - overflow + 1
      if hi < 0 ∨ (s.length : Int) < hi then .error .sliceRange
      else
        match lastSpaceIdx (s.take hi.toNat) with
        | none => Except.map (fun out => s :: out) (lineWrapLoop width fuel col1 rest)
        | some spaceAt =>
          if (s.length : Int) < (spaceAt : Int) then .error .splitHigh
          else if (spaceAt : Int) ≤ 0 then .error .splitLow
          else
            Except.map (fun out => trimRightST (s.take spaceAt) :: out)
              (lineWrapLoop width fuel 0 (['\n'] :: trimLeftST (s.drop spaceAt) :: rest))

/-- Fuel that strictly dominates the number of loop steps: each step either
consumes a fragment or splits one, and a split strictly shrinks the measure
`2 * total length + fragment count + 2`. -/
def wrapFuel (frags : List Str) : Nat :=
  2 * (frags.map List.length).sum + frags.length + 3

/-- `LineWrap(width)` applied to the fragment sequence of a chain. -/
def LineWrap (width : Int) (frags : List Str) : Except WrapPanicKind (List Str) :=
  lineWrapLoop width (wrapFuel frags) 0 frags

/-- Modelled from the spec (§4.4 step 2), for comparison with `lineWrapLoop`:
the variant wrap pass in which the running column counter is reset to 0 at a
pre-existing newline as well — "if a newline was found, reset `col` to 0 for
the portion after it (and repeat step 1 logic for anything remaining in the
same fragment after the newline)".  It differs from `lineWrapLoop` only in the
no-overflow branch when the fragment contains a newline: the part up to and
including that newline is emitted and the remainder of the fragment is
reprocessed with `col = 0`. -/
def lineWrapColResetLoop (width : Int) : Nat → Int → List Str → Except WrapPanicKind (List Str)
  | 0, _, _ => .error .outOfFuel
  | _ + 1, _, [] => .ok []
  | fuel + 1, col, s :: rest =>
    let nlAt : Nat := (strIndexNL s).getD s.length
    let col1 : Int := col + nlAt
    let overflow : Int := (width - col1) * (-1)
    if overflow ≤ 0 then
      match strIndexNL s with
      | none => Except.map (fun out => s :: out) (lineWrapColResetLoop width fuel col1 rest)
      | some i =>
        Except.map (fun out => s.take (i + 1) :: out)
          (lineWrapColResetLoop width fuel 0 (s.drop (i + 1) :: rest))
    else
      let hi : Int := (nlAt : Int) - overflow + 1
      if hi < 0 ∨ (s.length : Int) < hi then .error .sliceRange
      else
        match lastSpaceIdx (s.take hi.toNat) with
        | none => Except.map (fun out => s :: out) (lineWrapColResetLoop width fuel col1 rest)
        | some spaceAt =>
          if (s.length : Int) < (spaceAt : Int) then .error .splitHigh
          else if (spaceAt : Int) ≤ 0 then .error .splitLow
          else
            Except.map (fun out => trimRightST (s.take spaceAt) :: out)
              (lineWrapColResetLoop width fuel 0 (['\n'] :: trimLeftST (s.drop spaceAt) :: rest))

/-- Entry point of the spec's col-resetting variant of the wrap pass. -/
def LineWrapColReset (width : Int) (frags : List Str) : Except WrapPanicKind (List Str) :=
  lineWrapColResetLoop width (wrapFuel frags) 0 frags

/-! ### The fragment chain (`text.go`)

A `Text` value is one node of the doubly linked chain; the chain lives in a
heap (a list of nodes addressed by position), and a Go `*Text` pointer is an
address into that heap.  `none` is the nil pointer. -/

structure Text where
  S : Str
  Next : Option Nat
  Prev : Option Nat
  deriving DecidableEq, Repr

instance : Inhabited Text := ⟨⟨[], none, none⟩⟩

/-- The heap of chain nodes; a fresh node is allocated at the end. -/
abbrev Heap := List Text

/-- The `Next` pointer required of the last node of a chain segment whose
remaining nodes are `rest` and whose overall terminal pointer is `q`. -/
def nextTarget (q : Option Nat) (rest : List Nat) : Option Nat :=
  match rest with
  | [] => q
  | c :: _ => some c

/-- `segB h q p ids`: the addresses `ids` form a consecutive doubly linked
segment in heap `h`, the first node's `Prev` being `p`, consecutive nodes
pointing at each other, and the last node's `Next` being `q`. -/
def segB (h : Heap) (q : Option Nat) : Option Nat → List Nat → Bool
  | _, [] => true
  | p, a :: rest =>
    match h[a]? with
    | none => false
    | some nd =>
      (nd.Prev == p) && (nd.Next == nextTarget q rest) && segB h q (some a) rest

/-- The address of the last node of a segment `xs`, or the predecessor
pointer `p` when the segment is empty (used to state how two adjacent
segments of a chain connect). -/
def endOf (p : Option Nat) (xs : List Nat) : Option Nat :=
  match xs.getLast? with
  | some l => some l
  | none => p

/-- Chain well-formedness: a nonempty, duplicate-free address list linked
consecutively, with nil `Prev` at the head and nil `Next` at the tail.  This
is the doubly-linked-list invariant: finiteness and acyclicity (each address
occurs once and the walk ends at `none`), and mutual consistency of the
neighbour links. -/
def chainB (h : Heap) (ids : List Nat) : Bool :=
  !ids.isEmpty && decide ids.Nodup && segB h none none ids

/-- The logical content of the chain `ids` in heap `h`: the concatenation of
the fragments' strings from head to tail. -/
def contentOf (h : Heap) (ids : List Nat) : Str :=
  (ids.map (fun a => ((h[a]?).getD default).S)).flatten

/-- `Text.Insert` (text.go): splice a new fragment holding `s` immediately
before the node at `a`, re-linking `oldPrev.Next` (when a predecessor exists),
the new node's `Prev`/`Next`, and `t.Prev`.  Returns the heap and the new
node's address.  (On a dangling address — Go's nil pointer — the model returns
the heap unchanged; Go would panic, and no theorem uses that case.) -/
def Insert (h : Heap) (a : Nat) (s : Str) : Heap × Nat :=
  match h[a]? with
  | none => (h, h.length)
  | some nd =>
    let newId := h.length
    let h1 := h ++ [{ S := s, Next := some a, Prev := nd.Prev }]
    let h2 :=
      match nd.Prev with
      | some p =>
        match h1[p]? with
        | some pnd => h1.set p { pnd with Next := some newId }
        | none => h1
      | none => h1
    (h2.set a { ((h2[a]?).getD nd) with Prev := some newId }, newId)

/-- The two panic guards of `Text.Split`, plus the nil-receiver panic. -/
inductive SplitPanic where
  | nilText
  | idxHigh
  | idxLow
  deriving DecidableEq, Repr

/-- `Text.Split` (text.go): split the node at `a` at index `n`.  Panics when
`n > len(t.S)` or `n <= 0`; a no-op when `n == len(S)` (or `len(S) == 0`,
which the guards make unreachable).  Otherwise the node keeps `S[:n]` and
`S[n:]` becomes a new node immediately after it — allocated directly when the
node was the tail, and via `Insert` before the old successor otherwise.
Returns the address now holding the trailing part (`t.Next` after the
mutation). -/
def Split (h : Heap) (a : Nat) (n : Int) : Except SplitPanic (Heap × Nat) :=
  match h[a]? with
  | none => .error .nilText
  | some nd =>
    if (nd.S.length : Int) < n then .error .idxHigh
    else if n ≤ 0 then .error .idxLow
    else if nd.S.length = n.toNat ∨ nd.S.length = 0 then .ok (h, a)
    else
      let nextStr := nd.S.drop n.toNat
      let h1 := h.set a { nd with S := nd.S.take n.toNat }
      match nd.Next with
      | none =>
        let newId := h1.length
        .ok ((h1.set a { nd with S := nd.S.take n.toNat, Next := some newId }) ++
          [{ S := nextStr, Next := none, Prev := some a }], newId)
      | some b => .ok (Insert h1 b nextStr)

/-- `Text.Tail`: walk `Next` pointers from `a` until nil, with fuel. -/
def tailFrom (h : Heap) : Nat → Nat → Option Nat
  | 0, _ => none
  | fuel + 1, a =>
    match h[a]? with
    | none => none
    | some nd =>
      match nd.Next with
      | none => some a
      | some b => tailFrom h fuel b

/-- `Text.Head`: walk `Prev` pointers from `a` until nil, with fuel. -/
def headFrom (h : Heap) : Nat → Nat → Option Nat
  | 0, _ => none
  | fuel + 1, a =>
    match h[a]? with
    | none => none
    | some nd =>
      match nd.Prev with
      | none => some a
      | some b => headFrom h fuel b

/-- `Text.appendOne` (text.go): allocate a node holding `s` after the chain's
tail (located by walking from `a`) and return the new tail. -/
def appendOne (h : Heap) (a : Nat) (s : Str) : Option (Heap × Nat) :=
  match tailFrom h (h.length + 1) a with
  | none => none
  | some tl =>
    match h[tl]? with
    | none => none
    | some nd =>
      let newId := h.length
      some ((h.set tl { nd with Next := some newId }) ++
        [{ S := s, Next := none, Prev := some tl }], newId)

/-- `Text.prependOne` (text.go): allocate a node holding `s` before the
chain's head (located by walking from `a`) and return the new head. -/
def prependOne (h : Heap) (a : Nat) (s : Str) : Option (Heap × Nat) :=
  match headFrom h (h.length + 1) a with
  | none => none
  | some hd =>
    match h[hd]? with
    | none => none
    | some nd =>
      let newId := h.length
      some ((h.set hd { nd with Prev := some newId }) ++
        [{ S := s, Next := some hd, Prev := none }], newId)

/-- `Text.Append(ss...)` (text.go): `appendOne` each string in order, the
cursor moving to each new tail. -/
def Append (h : Heap) (a : Nat) : List Str → Option (Heap × Nat)
  | [] => some (h, a)
  | s :: rest =>
    match appendOne h a s with
    | none => none
    | some (h2, a2) => Append h2 a2 rest

/-- `prependOne` each string of a list in list order (the cursor moving to
each new head). -/
def prependSeq (h : Heap) (a : Nat) : List Str → Option (Heap × Nat)
  | [] => some (h, a)
  | s :: rest =>
    match prependOne h a s with
    | none => none
    | some (h2, a2) => prependSeq h2 a2 rest

/-- `Text.Prepend(ss...)` (text.go): the loop runs `i` from `len(ss)-1` down
to `0`, prepending `ss[i]`, i.e. it is `prependSeq` on the reversed list. -/
def Prepend (h : Heap) (a : Nat) (ss : List Str) : Option (Heap × Nat) :=
  prependSeq h a ss.reverse

/-- The package-level constructor `String(s...)` (text.go): a single node for
no arguments or for the first string, then `appendOne` for each further
string. -/
def StringCtor : List Str → Option (Heap × Nat)
  | [] => some ([{ S := [], Next := none, Prev := none }], 0)
  | s0 :: rest => Append [{ S := s0, Next := none, Prev := none }] 0 rest

/-- Materialization from the node at `a` (`String()`/`WriteTo` in text.go):
walk to the head, then concatenate every fragment following `Next`. -/
def collectFrom (h : Heap) : Nat → Nat → Option Str
  | 0, _ => none
  | fuel + 1, a =>
    match h[a]? with
    | none => none
    | some nd =>
      match nd.Next with
      | none => some nd.S
      | some b => (collectFrom h fuel b).map (fun t => nd.S ++ t)

/-- `t.String()` for the node at address `a`. -/
def StringOf (h : Heap) (a : Nat) : Option Str :=
  match headFrom h (h.length + 1) a with
  | none => none
  | some hd => collectFrom h (h.length + 1) hd

/-- A chain-building call: `Append(ss...)` or `Prepend(ss...)`. -/
inductive ChainOp where
  | app : List Str → ChainOp
  | pre : List Str → ChainOp
  deriving Repr

/-- Run a sequence of `Append`/`Prepend` calls, the cursor following each
call's return value as in the Go examples. -/
def runOps : Option (Heap × Nat) → List ChainOp → Option (Heap × Nat)
  | st, [] => st
  | none, _ :: _ => none
  | some (h, a), .app ss :: ops => runOps (Append h a ss) ops
  | some (h, a), .pre ss :: ops => runOps (Prepend h a ss) ops

/-- The content the spec assigns to a run of `Append`/`Prepend` calls: each
`Append` places its arguments, in order, at the end; each `Prepend` places its
arguments, in order, at the front. -/
def opsContent (c : Str) : List ChainOp → Str
  | [] => c
  | .app ss :: ops => opsContent (c ++ ss.flatten) ops
  | .pre ss :: ops => opsContent (ss.flatten ++ c) ops

/-! ### `Style.With` and Go slice aliasing (`text.go`)

`Style` is a Go slice of formatters.  To settle the copy-on-write claim the
slice is modelled with its backing store explicit: a memory of backing arrays
and a descriptor (array id, offset, length, capacity).  `append` writes in
place when spare capacity remains and reallocates otherwise; `With` is
`append(s[:len(s):len(s)], fs...)`, the full slice expression capping the
capacity at the length. -/

structure GoSlice where
  arr : Nat
  off : Nat
  len : Nat
  cap : Nat
  deriving DecidableEq, Repr

/-- The backing-array memory: array id ↦ contents. -/
abbrev Mem (α : Type) := List (List α)

/-- The elements a slice descriptor views. -/
def sliceView {α : Type} (m : Mem α) (s : GoSlice) : List α :=
  ((m[s.arr]?.getD []).drop s.off).take s.len

/-- Overwrite `l[i], l[i+1], ...` with the elements of `xs`. -/
def listWrite {α : Type} : List α → Nat → List α → List α
  | l, _, [] => l
  | l, i, x :: xs => listWrite (l.set i x) (i + 1) xs

/-- Go's `append(s, xs...)`: in place into the backing array when
`len + |xs| ≤ cap`, otherwise into a freshly allocated array.  (Go grows the
fresh capacity geometrically; the model gives it exactly the needed capacity,
which no claim observes.) -/
def goAppendSlice {α : Type} (m : Mem α) (s : GoSlice) (xs : List α) : Mem α × GoSlice :=
  if s.len + xs.length ≤ s.cap then
    (m.set s.arr (listWrite (m[s.arr]?.getD []) (s.off + s.len) xs),
      { s with len := s.len + xs.length })
  else
    (m ++ [sliceView m s ++ xs],
      { arr := m.length, off := 0, len := s.len + xs.length, cap := s.len + xs.length })

/-- `Style.With` (text.go): `append(s[:len(s):len(s)], fs...)` — the
three-index slice forces the append to copy. -/
def StyleWith {α : Type} (m : Mem α) (s : GoSlice) (fs : List α) : Mem α × GoSlice :=
  goAppendSlice m { s with cap := s.len } fs

/-- A slice descriptor that points at genuine storage. -/
def SliceWF {α : Type} (m : Mem α) (s : GoSlice) : Prop :=
  s.arr < m.length ∧ s.len ≤ s.cap ∧ s.off + s.cap ≤ (m[s.arr]?.getD []).length

/-! ### The `Indent(n)` formatter

`Indent` is exercised by `TestIndent` (helpers_test.go) but its implementation
is not among the sources; it is modelled here.

Modelled from the spec: `Indent(n)` "prepends `n` spaces before every line of
the text, including the first line" (§4.3) — amended on the trailing-newline
point by the repository's own test: `TestIndent/TrailingNewline` requires
`Indent(2)` on `"a\nb\n"` to produce `"  a\n  b\n"`, so the empty final line
after a trailing newline is NOT indented (the spec's claim of an extra,
indented, empty final line contradicts that test; see the theorems below). -/
def indentRest (n : Nat) : Str → Str
  | [] => []
  | c :: r =>
    if c = '\n' then
      match r with
      | [] => ['\n']
      | _ :: _ => '\n' :: (List.replicate n ' ' ++ indentRest n r)
    else c :: indentRest n r

/-- `Indent(n)` on the materialized text: indent the first line, then every
later line via `indentRest` (which leaves an empty final line unindented). -/
def Indent (n : Nat) (s : Str) : Str :=
  List.replicate n ' ' ++ indentRest n s

/-- The behaviour claim C10 asserts, stated as a function: every line of
`linesNL`, including an empty final line after a trailing newline, gets `n`
spaces prepended. -/
def indentClaimC10 (n : Nat) (s : Str) : Str :=
  (((linesNL s).map (fun l => List.replicate n ' ' ++ l)).intersperse ['\n']).flatten

/-- Line-level description of `Indent`'s effect on every line after the
first: each is indented except a final empty line (the one a trailing
newline produces), which stays empty. -/
def mapIndentTail (n : Nat) : List Str → List Str
  | [] => []
  | l :: [] => [if l = [] then [] else List.replicate n ' ' ++ l]
  | l :: ls => (List.replicate n ' ' ++ l) :: mapIndentTail n ls

/-! ## Lemmas: strings and lines -/

theorem noNLB_iff (s : Str) : noNLB s = true ↔ ∀ c ∈ s, c ≠ '\n' := by
  simp [noNLB]

theorem strIndexNL_of_noNL (s : Str) (h : noNLB s = true) : strIndexNL s = none := by
  induction s with
  | nil => rfl
  | cons c r ih =>
    rw [noNLB_iff] at h
    have hc : c ≠ '\n' := h c (by simp)
    have hr : noNLB r = true := (noNLB_iff r).mpr (fun x hx => h x (by simp [hx]))
    simp [strIndexNL, hc, ih hr]

theorem linesNL_ne_nil (s : Str) : linesNL s ≠ [] := by
  induction s with
  | nil => simp [linesNL]
  | cons c r ih =>
    by_cases hc : c = '\n'
    · simp [linesNL, hc]
    · cases hr : linesNL r with
      | nil => simp [linesNL, hc, hr]
      | cons l ls => simp [linesNL, hc, hr]

theorem linesNL_of_noNL (s : Str) (h : noNLB s = true) : linesNL s = [s] := by
  induction s with
  | nil => rfl
  | cons c r ih =>
    rw [noNLB_iff] at h
    have hc : c ≠ '\n' := h c (by simp)
    have hr : noNLB r = true := (noNLB_iff r).mpr (fun x hx => h x (by simp [hx]))
    simp [linesNL, hc, ih hr]

theorem linesNL_append_nl (a b : Str) (h : noNLB a = true) :
    linesNL (a ++ '\n' :: b) = a :: linesNL b := by
  induction a with
  | nil => simp [linesNL]
  | cons c r ih =>
    rw [noNLB_iff] at h
    have hc : c ≠ '\n' := h c (by simp)
    have hr : noNLB r = true := (noNLB_iff r).mpr (fun x hx => h x (by simp [hx]))
    simp [linesNL, hc, ih hr, List.append_eq]

theorem mem_trimLeftST {c : Char} {s : Str} (h : c ∈ trimLeftST s) : c ∈ s :=
  (List.dropWhile_sublist isCutST).subset h

theorem mem_trimRightST {c : Char} {s : Str} (h : c ∈ trimRightST s) : c ∈ s := by
  have := (List.dropWhile_sublist (l := s.reverse) isCutST).subset
    (by simpa [trimRightST] using h)
  simpa using this

theorem length_trimLeftST (s : Str) : (trimLeftST s).length ≤ s.length :=
  (List.dropWhile_sublist isCutST).length_le

theorem length_trimRightST (s : Str) : (trimRightST s).length ≤ s.length := by
  have := (List.dropWhile_sublist (l := s.reverse) isCutST).length_le
  simpa [trimRightST] using this

theorem noNLB_trimLeftST (s : Str) (h : noNLB s = true) : noNLB (trimLeftST s) = true :=
  (noNLB_iff _).mpr fun c hc => (noNLB_iff s).mp h c (mem_trimLeftST hc)

theorem noNLB_trimRightST (s : Str) (h : noNLB s = true) : noNLB (trimRightST s) = true :=
  (noNLB_iff _).mpr fun c hc => (noNLB_iff s).mp h c (mem_trimRightST hc)

theorem noNLB_take (s : Str) (n : Nat) (h : noNLB s = true) : noNLB (s.take n) = true :=
  (noNLB_iff _).mpr fun c hc => (noNLB_iff s).mp h c ((List.take_sublist n s).subset hc)

theorem noNLB_drop (s : Str) (n : Nat) (h : noNLB s = true) : noNLB (s.drop n) = true :=
  (noNLB_iff _).mpr fun c hc => (noNLB_iff s).mp h c ((List.drop_sublist n s).subset hc)

theorem lastSpaceIdx_none (s : Str) (h : lastSpaceIdx s = none) :
    ∀ c ∈ s, goIsSpace c = false := by
  induction s with
  | nil => simp
  | cons c r ih =>
    intro x hx
    unfold lastSpaceIdx at h
    cases hr : lastSpaceIdx r with
    | some i => rw [hr] at h; exact absurd h (by simp)
    | none =>
      rw [hr] at h
      rw [List.mem_cons] at hx
      rcases hx with rfl | hx
      · by_contra hcs
        simp [Bool.not_eq_false] at hcs
        simp [hcs] at h
      · exact ih hr x hx

theorem lastSpaceIdx_some_lt (s : Str) (i : Nat) (h : lastSpaceIdx s = some i) :
    i < s.length := by
  induction s generalizing i with
  | nil => simp [lastSpaceIdx] at h
  | cons c r ih =>
    unfold lastSpaceIdx at h
    cases hr : lastSpaceIdx r with
    | some j =>
      rw [hr] at h
      cases h
      exact Nat.succ_lt_succ (ih j hr)
    | none =>
      rw [hr] at h
      by_cases hc : goIsSpace c
      · simp [hc] at h; simp [List.length_cons]; omega
      · simp [hc] at h

theorem except_map_ok {ε α β : Type} (f : α → β) (e : Except ε α) (x : β)
    (h : Except.map f e = .ok x) : ∃ y, e = .ok y ∧ x = f y := by
  cases e with
  | error err => simp [Except.map] at h
  | ok y => exact ⟨y, rfl, by simpa [Except.map] using h.symm⟩

theorem lineWrapLoop_nil (width : Int) (fuel : Nat) (col : Int) (h : 1 ≤ fuel) :
    lineWrapLoop width fuel col [] = .ok [] := by
  match fuel, h with
  | n + 1, _ => rfl

theorem lineWrapLoop_nil_ok (width : Int) (fuel : Nat) (col : Int) (out : List Str)
    (h : lineWrapLoop width fuel col [] = .ok out) : out = [] := by
  cases fuel with
  | zero => exact absurd h (by simp [lineWrapLoop])
  | succ n =>
    simp only [lineWrapLoop] at h
    exact (Except.ok.injEq _ _).mp h |>.symm

/-- Main induction for the amended C1: a single-fragment chain with no
pre-existing newline wraps into lines that fit the width except when a line
starts with an unbroken run longer than the width. -/
theorem wrapGoodSingle (width : Int) (hw : 1 ≤ width) :
    ∀ fuel (s : Str), noNLB s = true →
    ∀ out, lineWrapLoop width fuel 0 [s] = .ok out →
    ∀ l ∈ linesNL out.flatten,
      (l.length : Int) ≤ width ∨ (l.take (width.toNat + 1)).all (fun c => !goIsSpace c) = true := by
  intro fuel
  induction fuel using Nat.strong_induction_on with
  | _ fuel IH =>
    intro s hs out h l hl
    match fuel with
    | 0 => exact absurd h (by simp [lineWrapLoop])
    | n + 1 =>
      have hnl : strIndexNL s = none := strIndexNL_of_noNL s hs
      simp only [lineWrapLoop, hnl, Option.getD_none] at h
      by_cases hov : (width - ((0 : Int) + (s.length : Int))) * (-1) ≤ 0
      · -- no overflow: the fragment is passed through
        rw [if_pos hov] at h
        obtain ⟨out1, hrec, hout⟩ := except_map_ok _ _ _ h
        have : out1 = [] := lineWrapLoop_nil_ok _ _ _ _ hrec
        subst this
        subst hout
        rw [show List.flatten [s] = s by simp, linesNL_of_noNL s hs] at hl
        rw [List.mem_singleton] at hl
        subst hl
        left
        omega
      · rw [if_neg hov] at h
        have hlenw : (width : Int) < (s.length : Int) := by omega
        have hhi : ¬((s.length : Int) - (width - ((0 : Int) + (s.length : Int))) * (-1) + 1 < 0 ∨
            (s.length : Int) < (s.length : Int) - (width - ((0 : Int) + (s.length : Int))) * (-1) + 1) := by
          omega
        rw [if_neg hhi] at h
        have htn : ((s.length : Int) - (width - ((0 : Int) + (s.length : Int))) * (-1) + 1).toNat =
            width.toNat + 1 := by omega
        rw [htn] at h
        cases hsp : lastSpaceIdx (s.take (width.toNat + 1)) with
        | none =>
          rw [hsp] at h
          obtain ⟨out1, hrec, hout⟩ := except_map_ok _ _ _ h
          have : out1 = [] := lineWrapLoop_nil_ok _ _ _ _ hrec
          subst this
          subst hout
          rw [show List.flatten [s] = s by simp, linesNL_of_noNL s hs] at hl
          rw [List.mem_singleton] at hl
          subst hl
          right
          rw [List.all_eq_true]
          intro c hc
          simp [lastSpaceIdx_none _ hsp c hc]
        | some spaceAt =>
          rw [hsp] at h
          have h : (if (s.length : Int) < (spaceAt : Int) then
                (Except.error WrapPanicKind.splitHigh : Except WrapPanicKind (List Str))
              else if (spaceAt : Int) ≤ 0 then Except.error WrapPanicKind.splitLow
              else
                Except.map (fun out => trimRightST (s.take spaceAt) :: out)
                  (lineWrapLoop width n 0 (['\n'] :: trimLeftST (s.drop spaceAt) :: []))) =
              Except.ok out := h
          have hsalt : spaceAt < width.toNat + 1 := by
            have := lastSpaceIdx_some_lt _ _ hsp
            rw [List.length_take] at this
            omega
          have hsalen : spaceAt < s.length := by
            have := lastSpaceIdx_some_lt _ _ hsp
            rw [List.length_take] at this
            omega
          rw [if_neg (by omega)] at h
          by_cases hz : ((spaceAt : Int) ≤ 0)
          · rw [if_pos hz] at h
            exact absurd h (by simp)
          · rw [if_neg hz] at h
            obtain ⟨out1, hrec, hout⟩ := except_map_ok _ _ _ h
            -- the inserted "\n" fragment is consumed by the next iteration
            match n, hrec with
            | m + 1, hrec =>
              have hnl2 : strIndexNL ['\n'] = some 0 := rfl
              simp only [lineWrapLoop, hnl2, Option.getD_some] at hrec
              rw [if_pos (by push_cast; omega)] at hrec
              obtain ⟨out2, hrec2, hout1⟩ := except_map_ok _ _ _ hrec
              have htr : noNLB (trimLeftST (s.drop spaceAt)) = true :=
                noNLB_trimLeftST _ (noNLB_drop s spaceAt hs)
              have hrec3 : lineWrapLoop width m 0 [trimLeftST (s.drop spaceAt)] = .ok out2 := by
                simpa using hrec2
              have hgood := IH m (by omega) _ htr out2 hrec3
              subst hout
              subst hout1
              have hflat :
                  (trimRightST (s.take spaceAt) :: ['\n'] :: out2).flatten =
                    trimRightST (s.take spaceAt) ++ '\n' :: out2.flatten := by
                simp
              rw [hflat, linesNL_append_nl _ _ (noNLB_trimRightST _ (noNLB_take s spaceAt hs))] at hl
              rw [List.mem_cons] at hl
              rcases hl with rfl | hl
              · left
                have h1 : (trimRightST (s.take spaceAt)).length ≤ (s.take spaceAt).length :=
                  length_trimRightST _
                rw [List.length_take] at h1
                omega
              · exact hgood l hl

/-! ## Model validation: the six `TestLineWrap` vectors (text_test.go) -/

example : LineWrap 100 [("The crazy fox jumped").toList] =
    .ok [("The crazy fox jumped").toList] := rfl

example : LineWrap 10 [("The crazy fox jumped").toList] =
    .ok [("The crazy").toList, ['\n'], ("fox jumped").toList] := rfl

example : LineWrap 10 [("The crazy_fox_jumped").toList] =
    .ok [("The").toList, ['\n'], ("crazy_fox_jumped").toList] := rfl

example : LineWrap 4 [("aabb cc dd ee ff").toList] =
    .ok [("aabb").toList, ['\n'], ("cc").toList, ['\n'], ("dd").toList, ['\n'],
      ("ee").toList, ['\n'], ("ff").toList] := rfl

example : LineWrap 10 [[]] = .ok [[]] := rfl

example : LineWrap 10 [("supercalifragilisticexpialidocious").toList] =
    .ok [("supercalifragilisticexpialidocious").toList] := rfl

/-! ## Claims C1, C2, C3 -/

/-- C1, counterexample: at width 4 the single fragment `"aaaaaa bb"` is passed
through unchanged (the only whitespace lies beyond the overflow window
`S[:width+1]`, so the algorithm gives up on the whole fragment), leaving a
9-character line that is not a single word — it has internal whitespace —
contradicting the claim that only a single word may exceed the width. -/
theorem claim_C1_counterexample :
    LineWrap 4 [("aaaaaa bb").toList] = .ok [("aaaaaa bb").toList] ∧
    ¬ (∀ l ∈ linesNL (List.flatten [("aaaaaa bb").toList]),
        (l.length : Int) ≤ 4 ∨ l.all (fun c => !goIsSpace c) = true) := by
  exact ⟨rfl, by decide⟩

/-- C1 (amended): for width ≥ 1 and a chain of one fragment with no
pre-existing newline, whenever `LineWrap(width)` completes normally every
line of the result either fits the width or carries no whitespace among its
first `width + 1` characters (the overflow was caused by a word longer than
the width at the start of the line; the algorithm then leaves the whole
remaining fragment — even later breakable text — on that line). -/
theorem claim_C1 (width : Int) (s : Str) (hw : 1 ≤ width) (hs : noNLB s = true)
    (out : List Str) (h : LineWrap width [s] = .ok out) :
    ∀ l ∈ linesNL out.flatten,
      (l.length : Int) ≤ width ∨
        (l.take (width.toNat + 1)).all (fun c => !goIsSpace c) = true :=
  wrapGoodSingle width hw (wrapFuel [s]) s hs out h

/-- C1 witness: the amended statement applied to the `Basic` test vector, at
the first line of its wrapped output. -/
theorem claim_C1_witness :
    ((("The crazy").toList.length : Int) ≤ 10 ∨
      ((("The crazy").toList.take ((10 : Int).toNat + 1)).all (fun c => !goIsSpace c)) = true) :=
  claim_C1 10 (("The crazy fox jumped").toList) (by decide) (by decide)
    [("The crazy").toList, ['\n'], ("fox jumped").toList] rfl
    (("The crazy").toList) (by decide)

/-- C2, counterexample: on the single fragment `"a\nbb cc dd"` at width 4 the
code leaves everything untouched — the 8-character run after the embedded
newline is never wrapped — while the spec's col-resetting pass (`col` set to
0 at the pre-existing newline) wraps it into `"a\nbb\ncc\ndd"`.  The column
counter is therefore not reset at pre-existing newlines. -/
theorem claim_C2_counterexample :
    LineWrap 4 [("a\nbb cc dd").toList] = .ok [("a\nbb cc dd").toList] ∧
    LineWrapColReset 4 [("a\nbb cc dd").toList] =
      .ok [("a\n").toList, ("bb").toList, ['\n'], [], ("cc").toList, ['\n'], [], ("dd").toList] ∧
    List.flatten [("a\n").toList, ("bb").toList, ['\n'], [], ("cc").toList, ['\n'], [], ("dd").toList] ≠
      List.flatten [("a\nbb cc dd").toList] := by
  refine ⟨rfl, rfl, by decide⟩

/-- C2 (amended): during the single pass, `col` is reset to 0 exactly at the
newlines the algorithm inserts.  First conjunct: a fragment whose first
pre-existing newline (at offset `i`) causes no overflow is passed through with
`col` advanced to `col + i` — not reset to 0 — and the fragment's content
after that newline is not examined further.  Second conjunct: a split step
continues, after the inserted `"\n"` fragment, with `col = 0`. -/
theorem claim_C2 (width col : Int) (fuel : Nat) (s : Str) (rest : List Str) :
    (∀ i : Nat, strIndexNL s = some i → (width - (col + (i : Int))) * (-1) ≤ 0 →
      lineWrapLoop width (fuel + 1) col (s :: rest) =
        Except.map (fun out => s :: out) (lineWrapLoop width fuel (col + (i : Int)) rest)) ∧
    (∀ spaceAt : Nat, strIndexNL s = none →
      ¬((width - (col + (s.length : Int))) * (-1) ≤ 0) →
      ¬((s.length : Int) - (width - (col + (s.length : Int))) * (-1) + 1 < 0 ∨
          (s.length : Int) < (s.length : Int) - (width - (col + (s.length : Int))) * (-1) + 1) →
      lastSpaceIdx (s.take ((s.length : Int) - (width - (col + (s.length : Int))) * (-1) + 1).toNat) =
        some spaceAt →
      ¬((s.length : Int) < (spaceAt : Int)) → ¬((spaceAt : Int) ≤ 0) →
      lineWrapLoop width (fuel + 1) col (s :: rest) =
        Except.map (fun out => trimRightST (s.take spaceAt) :: out)
          (lineWrapLoop width fuel 0 (['\n'] :: trimLeftST (s.drop spaceAt) :: rest))) := by
  constructor
  · intro i hnl hnov
    simp only [lineWrapLoop, hnl, Option.getD_some]
    rw [if_pos hnov]
  · intro spaceAt hnl hov hhi hsp hg1 hg2
    simp only [lineWrapLoop, hnl, Option.getD_none]
    rw [if_neg hov, if_neg hhi, hsp]
    have hred : (if (s.length : Int) < (spaceAt : Int) then
          (Except.error WrapPanicKind.splitHigh : Except WrapPanicKind (List Str))
        else if (spaceAt : Int) ≤ 0 then Except.error WrapPanicKind.splitLow
        else
          Except.map (fun out => trimRightST (s.take spaceAt) :: out)
            (lineWrapLoop width fuel 0 (['\n'] :: trimLeftST (s.drop spaceAt) :: rest))) =
        Except.map (fun out => trimRightST (s.take spaceAt) :: out)
          (lineWrapLoop width fuel 0 (['\n'] :: trimLeftST (s.drop spaceAt) :: rest)) := by
      rw [if_neg hg1, if_neg hg2]
    exact hred

/-- C2 witness: both conjuncts at concrete inputs — the pass-through of
`"a\nbb cc dd"` at width 4 continues with `col = 1`, and the split of
`"aaaa b"` at width 4 continues with `col = 0` after the inserted newline. -/
theorem claim_C2_witness :
    lineWrapLoop 4 3 0 [("a\nbb cc dd").toList] =
      Except.map (fun out => ("a\nbb cc dd").toList :: out)
        (lineWrapLoop 4 2 ((0 : Int) + ((1 : Nat) : Int)) []) ∧
    lineWrapLoop 4 6 0 [("aaaa b").toList] =
      Except.map (fun out => trimRightST ((("aaaa b").toList).take 4) :: out)
        (lineWrapLoop 4 5 0 (['\n'] :: trimLeftST ((("aaaa b").toList).drop 4) :: [])) := by
  constructor
  · exact (claim_C2 4 0 2 (("a\nbb cc dd").toList) []).1 1 (by decide) (by decide)
  · exact (claim_C2 4 0 5 (("aaaa b").toList) []).2 4 (by decide) (by decide) (by decide)
      (by decide) (by decide) (by decide)

/-- C3: `LineWrap` is not panic-free.  At width 4 the single fragment
`" aaaaa"` (leading space, then a word longer than the width) makes the
algorithm find the whitespace at index 0 and call `Split(0)`, which panics
with "split index must be > 0"; and at width 2 the chain
`["aaaaa", "bb"]` carries an accumulated column of 5 into the second
fragment, so the slice `at.S[:nlAt-overflow+1]` is taken with the negative
bound `-2` and panics. -/
theorem claim_C3 :
    LineWrap 4 [(" aaaaa").toList] = .error WrapPanicKind.splitLow ∧
    LineWrap 2 [("aaaaa").toList, ("bb").toList] = .error WrapPanicKind.sliceRange :=
  ⟨rfl, rfl⟩

/-! ## Lemmas: chain segments in the heap -/

theorem endOf_nil (p : Option Nat) : endOf p [] = p := rfl

theorem endOf_cons (p : Option Nat) (x : Nat) (xs : List Nat) :
    endOf p (x :: xs) = endOf (some x) xs := by
  cases xs with
  | nil => rfl
  | cons y ys =>
    simp only [endOf, List.getLast?_cons_cons]
    cases hl : (y :: ys).getLast? with
    | none => exact absurd hl (by simp)
    | some l => rfl

theorem endOf_concat (p : Option Nat) (xs : List Nat) (x : Nat) :
    endOf p (xs ++ [x]) = some x := by
  simp [endOf, List.getLast?_concat]

theorem nextTarget_append (q : Option Nat) (xs : List Nat) (b : Nat) (ys : List Nat) :
    nextTarget q (xs ++ b :: ys) = nextTarget (some b) xs := by
  cases xs <;> rfl

theorem segB_congr (h h2 : Heap) (q p : Option Nat) (ids : List Nat)
    (hag : ∀ a ∈ ids, h2[a]? = h[a]?) : segB h2 q p ids = segB h q p ids := by
  induction ids generalizing p with
  | nil => rfl
  | cons a rest ih =>
    simp only [segB, hag a (by simp)]
    cases h[a]? with
    | none => rfl
    | some nd => rw [ih (some a) (fun x hx => hag x (by simp [hx]))]

theorem segB_cons_elim (h : Heap) (q p : Option Nat) (a : Nat) (rest : List Nat)
    (hs : segB h q p (a :: rest) = true) :
    ∃ nd, h[a]? = some nd ∧ nd.Prev = p ∧ nd.Next = nextTarget q rest ∧
      segB h q (some a) rest = true := by
  unfold segB at hs
  cases hnd : h[a]? with
  | none => rw [hnd] at hs; exact absurd hs (by simp)
  | some nd =>
    rw [hnd] at hs
    simp only [Bool.and_eq_true, beq_iff_eq] at hs
    exact ⟨nd, rfl, hs.1.1, hs.1.2, hs.2⟩

theorem segB_cons_intro (h : Heap) (q p : Option Nat) (a : Nat) (rest : List Nat)
    (nd : Text) (hnd : h[a]? = some nd) (hp : nd.Prev = p) (hn : nd.Next = nextTarget q rest)
    (hrest : segB h q (some a) rest = true) : segB h q p (a :: rest) = true := by
  unfold segB
  rw [hnd]
  simp [hp, hn, hrest]

theorem segB_append (h : Heap) (q p : Option Nat) (xs : List Nat) (b : Nat) (ys : List Nat) :
    segB h q p (xs ++ b :: ys) =
      (segB h (some b) p xs && segB h q (endOf p xs) (b :: ys)) := by
  induction xs generalizing p with
  | nil => simp [segB, endOf_nil]
  | cons x xs ih =>
    simp only [List.cons_append, segB, List.append_eq]
    cases hx : h[x]? with
    | none => rfl
    | some nd =>
      show ((nd.Prev == p) && (nd.Next == nextTarget q (xs ++ b :: ys)) &&
          segB h q (some x) (xs ++ b :: ys)) =
        (((nd.Prev == p) && (nd.Next == nextTarget (some b) xs) &&
          segB h (some b) (some x) xs) && segB h q (endOf p (x :: xs)) (b :: ys))
      rw [ih (some x), nextTarget_append, endOf_cons]
      simp [Bool.and_assoc]

theorem segB_mem_lt (h : Heap) (q : Option Nat) : ∀ (p : Option Nat) (ids : List Nat),
    segB h q p ids = true → ∀ a ∈ ids, a < h.length := by
  intro p ids
  induction ids generalizing p with
  | nil => intro _ a ha; simp at ha
  | cons x rest ih =>
    intro hs a ha
    obtain ⟨nd, hnd, _, _, hrest⟩ := segB_cons_elim h q p x rest hs
    rw [List.mem_cons] at ha
    rcases ha with rfl | ha
    · exact (List.getElem?_eq_some.mp hnd).1
    · exact ih (some x) hrest a ha

theorem segB_set_outside (h : Heap) (b : Nat) (nd : Text) (q p : Option Nat) (ids : List Nat)
    (hb : b ∉ ids) : segB (h.set b nd) q p ids = segB h q p ids :=
  segB_congr h (h.set b nd) q p ids (fun a ha => by
    apply List.getElem?_set_ne
    intro hba
    subst hba
    exact hb ha)

theorem segB_grow (h : Heap) (l : Heap) (q p : Option Nat) (ids : List Nat)
    (hlt : ∀ a ∈ ids, a < h.length) : segB (h ++ l) q p ids = segB h q p ids :=
  segB_congr h (h ++ l) q p ids
    (fun a ha => by rw [List.getElem?_append]; simp [hlt a ha])

theorem contentOf_congr (h h2 : Heap) (ids : List Nat)
    (hag : ∀ a ∈ ids, ((h2[a]?).getD default).S = ((h[a]?).getD default).S) :
    contentOf h2 ids = contentOf h ids := by
  unfold contentOf
  congr 1
  exact List.map_congr_left hag

theorem contentOf_append (h : Heap) (xs ys : List Nat) :
    contentOf h (xs ++ ys) = contentOf h xs ++ contentOf h ys := by
  simp [contentOf]

theorem contentOf_cons (h : Heap) (a : Nat) (ids : List Nat) :
    contentOf h (a :: ids) = ((h[a]?).getD default).S ++ contentOf h ids := by
  simp [contentOf]

theorem nodup_bound_length (ids : List Nat) (n : Nat) (hnd : ids.Nodup)
    (hlt : ∀ a ∈ ids, a < n) : ids.length ≤ n := by
  have h1 : ids.toFinset.card = ids.length := List.toFinset_card_of_nodup hnd
  have h2 : ids.toFinset ⊆ Finset.range n := by
    intro x hx
    rw [List.mem_toFinset] at hx
    rw [Finset.mem_range]
    exact hlt x hx
  have h3 := Finset.card_le_card h2
  rw [h1, Finset.card_range] at h3
  exact h3

/-! ## Lemmas: pointer walks under well-formedness -/

theorem tailFrom_seg (h : Heap) : ∀ (ys : List Nat) (a : Nat) (p : Option Nat) (fuel : Nat),
    segB h none p (a :: ys) = true → ys.length < fuel →
    tailFrom h fuel a = (a :: ys).getLast? := by
  intro ys
  induction ys with
  | nil =>
    intro a p fuel hs hf
    obtain ⟨nd, hnd, _, hn, _⟩ := segB_cons_elim h none p a [] hs
    match fuel, hf with
    | f + 1, _ => simp [tailFrom, hnd, hn, nextTarget, List.getLast?]
  | cons b ys ih =>
    intro a p fuel hs hf
    obtain ⟨nd, hnd, _, hn, hrest⟩ := segB_cons_elim h none p a (b :: ys) hs
    match fuel, hf with
    | f + 1, hf =>
      have hstep : tailFrom h (f + 1) a = tailFrom h f b := by
        simp [tailFrom, hnd, hn, nextTarget]
      rw [hstep, ih b (some a) f hrest (by simpa using Nat.lt_of_succ_lt_succ hf),
        List.getLast?_cons_cons]

theorem headFrom_seg (h : Heap) (xs : List Nat) (a : Nat) (q : Option Nat) (fuel : Nat) :
    segB h q none (xs ++ [a]) = true → xs.length < fuel →
    headFrom h fuel a = (xs ++ [a]).head? := by
  induction xs using List.reverseRecOn generalizing a q fuel with
  | nil =>
    intro hs hf
    obtain ⟨nd, hnd, hp, _, _⟩ := segB_cons_elim h q none a [] (by simpa using hs)
    match fuel, hf with
    | f + 1, _ => simp [headFrom, hnd, hp, List.head?]
  | append_singleton zs pn ih =>
    intro hs hf
    rw [show (zs ++ [pn]) ++ [a] = (zs ++ [pn]) ++ a :: [] from rfl,
      segB_append h q none (zs ++ [pn]) a []] at hs
    simp only [Bool.and_eq_true] at hs
    obtain ⟨hseg1, hseg2⟩ := hs
    rw [endOf_concat] at hseg2
    obtain ⟨nd, hnd, hp, _, _⟩ := segB_cons_elim h q (some pn) a [] hseg2
    match fuel, hf with
    | f + 1, hf =>
      have hstep : headFrom h (f + 1) a = headFrom h f pn := by
        simp [headFrom, hnd, hp]
      rw [hstep, ih pn (some a) f hseg1
        (by rw [List.length_append] at hf; simpa using Nat.lt_of_succ_lt_succ hf)]
      cases zs <;> simp

theorem collectFrom_seg (h : Heap) : ∀ (ys : List Nat) (a : Nat) (p : Option Nat) (fuel : Nat),
    segB h none p (a :: ys) = true → ys.length < fuel →
    collectFrom h fuel a = some (contentOf h (a :: ys)) := by
  intro ys
  induction ys with
  | nil =>
    intro a p fuel hs hf
    obtain ⟨nd, hnd, _, hn, _⟩ := segB_cons_elim h none p a [] hs
    match fuel, hf with
    | f + 1, _ => simp [collectFrom, hnd, hn, nextTarget, contentOf]
  | cons b ys ih =>
    intro a p fuel hs hf
    obtain ⟨nd, hnd, _, hn, hrest⟩ := segB_cons_elim h none p a (b :: ys) hs
    match fuel, hf with
    | f + 1, hf =>
      have hstep : collectFrom h (f + 1) a =
          (collectFrom h f b).map (fun t => nd.S ++ t) := by
        simp [collectFrom, hnd, hn, nextTarget]
      rw [hstep, ih b (some a) f hrest (by simpa using Nat.lt_of_succ_lt_succ hf)]
      simp [contentOf_cons, hnd]

theorem chainB_elim (h : Heap) (ids : List Nat) (hc : chainB h ids = true) :
    ids ≠ [] ∧ ids.Nodup ∧ segB h none none ids = true := by
  unfold chainB at hc
  simp only [Bool.and_eq_true, Bool.not_eq_true', List.isEmpty_eq_false,
    decide_eq_true_eq] at hc
  exact ⟨by simpa using hc.1.1, hc.1.2, hc.2⟩

theorem chainB_intro (h : Heap) (ids : List Nat) (hne : ids ≠ []) (hnd : ids.Nodup)
    (hseg : segB h none none ids = true) : chainB h ids = true := by
  unfold chainB
  simp only [Bool.and_eq_true, Bool.not_eq_true', List.isEmpty_eq_false,
    decide_eq_true_eq]
  exact ⟨⟨by simpa using hne, hnd⟩, hseg⟩

theorem chainB_length_le (h : Heap) (ids : List Nat) (hc : chainB h ids = true) :
    ids.length ≤ h.length := by
  obtain ⟨_, hnd, hseg⟩ := chainB_elim h ids hc
  exact nodup_bound_length ids h.length hnd (segB_mem_lt h none none ids hseg)

/-- Materialization under well-formedness: from any member of a well-formed
chain, `String()` yields the chain's full content. -/
theorem StringOf_chain (h : Heap) (ids : List Nat) (a : Nat)
    (hc : chainB h ids = true) (ha : a ∈ ids) : StringOf h a = some (contentOf h ids) := by
  obtain ⟨xs, ys, rfl⟩ := List.append_of_mem ha
  obtain ⟨hne, hnd, hseg⟩ := chainB_elim _ _ hc
  have hlen := chainB_length_le _ _ hc
  have hxs : xs.length < h.length + 1 := by
    rw [List.length_append, List.length_cons] at hlen
    omega
  have hhd : headFrom h (h.length + 1) a = (xs ++ [a]).head? := by
    cases ys with
    | nil => exact headFrom_seg h xs a none (h.length + 1) hseg hxs
    | cons y ys' =>
      rw [show xs ++ a :: y :: ys' = (xs ++ [a]) ++ y :: ys' by simp] at hseg
      rw [segB_append h none none (xs ++ [a]) y ys'] at hseg
      simp only [Bool.and_eq_true] at hseg
      exact headFrom_seg h xs a (some y) (h.length + 1) hseg.1 hxs
  cases hids : xs ++ a :: ys with
  | nil => exact absurd hids (by simp)
  | cons hd0 rest =>
    have hhd2 : (xs ++ [a]).head? = some hd0 := by
      cases xs with
      | nil => simpa using congrArg List.head? hids
      | cons x xs' => simpa using congrArg List.head? hids
    have hrest : rest.length < h.length + 1 := by
      have := hlen
      rw [hids] at this
      rw [List.length_cons] at this
      omega
    have hseg0 : segB h none none (hd0 :: rest) = true := by rw [← hids]; exact hseg
    unfold StringOf
    rw [hhd, hhd2]
    show collectFrom h (h.length + 1) hd0 = some (contentOf h (hd0 :: rest))
    exact collectFrom_seg h rest hd0 none (h.length + 1) hseg0 hrest

/-! ## Lemmas: heap surgery helpers -/

theorem getElem?_append_lt {α : Type} (h l : List α) (x : Nat) (hx : x < h.length) :
    (h ++ l)[x]? = h[x]? := by
  rw [List.getElem?_append]
  simp [hx]

theorem contentOf_set_S (h : Heap) (a : Nat) (nd' : Text) (ids : List Nat)
    (hS : ((h[a]?).getD default).S = nd'.S) :
    contentOf (h.set a nd') ids = contentOf h ids := by
  apply contentOf_congr
  intro x hx
  rw [List.getElem?_set]
  by_cases hxa : a = x
  · subst hxa
    by_cases hlt : a < h.length
    · simp [hlt, ← hS]
    · have hnone : h[a]? = none := List.getElem?_eq_none (by omega)
      simp [hlt, hnone]
  · simp [hxa]

theorem contentOf_grow (h l : Heap) (ids : List Nat) (hlt : ∀ x ∈ ids, x < h.length) :
    contentOf (h ++ l) ids = contentOf h ids := by
  apply contentOf_congr
  intro x hx
  rw [getElem?_append_lt h l x (hlt x hx)]

theorem nodup_insert_middle (xs ys : List Nat) (a b : Nat) (hnd : (xs ++ a :: ys).Nodup)
    (hb : b ∉ xs ++ a :: ys) : (xs ++ b :: a :: ys).Nodup :=
  (List.perm_middle.nodup_iff).mpr (List.nodup_cons.mpr ⟨hb, hnd⟩)

/-! ## Lemmas: `Insert` specification -/

/-- `Insert` on any member of a well-formed chain — including the head —
splices the new node immediately before it: the chain stays well-formed, the
new node's address is the old heap size, and the content gains `s` at that
position. -/
theorem Insert_spec (h : Heap) (xs ys : List Nat) (a : Nat) (nd : Text) (s : Str)
    (hc : chainB h (xs ++ a :: ys) = true) (hnda : h[a]? = some nd) :
    ∃ h3, Insert h a s = (h3, h.length) ∧
      chainB h3 (xs ++ h.length :: a :: ys) = true ∧
      contentOf h3 (xs ++ h.length :: a :: ys) =
        contentOf h xs ++ s ++ contentOf h (a :: ys) := by
  obtain ⟨hne, hndp, hseg⟩ := chainB_elim _ _ hc
  have hmem := segB_mem_lt h none none _ hseg
  have hseg2 := hseg
  rw [segB_append h none none xs a ys] at hseg2
  simp only [Bool.and_eq_true] at hseg2
  obtain ⟨hsegxs, hsegays⟩ := hseg2
  obtain ⟨nd', hnd', hprev, hnext, hsegys⟩ := segB_cons_elim h none (endOf none xs) a ys hsegays
  rw [hnda, Option.some.injEq] at hnd'
  subst hnd'
  have halt : a < h.length := hmem a (by simp)
  have hysmem : ∀ x ∈ ys, x < h.length := fun x hx => hmem x (by simp [hx])
  have hxsmem : ∀ x ∈ xs, x < h.length := fun x hx => hmem x (by simp [hx])
  have hnidxs : h.length ∉ xs := fun hm => absurd (hxsmem _ hm) (lt_irrefl _)
  have hnidys : h.length ∉ ys := fun hm => absurd (hysmem _ hm) (lt_irrefl _)
  have hnida : h.length ≠ a := fun hm => absurd (hm ▸ halt) (lt_irrefl _)
  have hdisj : xs.Disjoint (a :: ys) := (List.nodup_append.mp hndp).2.2
  have haxs : a ∉ xs := fun hm => hdisj hm (by simp)
  have hays : a ∉ ys :=
    (List.nodup_cons.mp ((List.nodup_append.mp hndp).2.1)).1
  have hnodup2 : (xs ++ h.length :: a :: ys).Nodup :=
    nodup_insert_middle xs ys a h.length hndp
      (by
        intro hm
        rcases List.mem_append.mp hm with hm | hm
        · exact hnidxs hm
        · rw [List.mem_cons] at hm
          rcases hm with hm | hm
          · exact hnida hm
          · exact hnidys hm)
  cases xs using List.reverseRecOn with
  | nil =>
    rw [endOf_nil] at hprev
    have hlook1 : (h ++ [({ S := s, Next := some a, Prev := none } : Text)])[a]? = some nd := by
      rw [getElem?_append_lt _ _ _ halt]; exact hnda
    refine ⟨(h ++ [({ S := s, Next := some a, Prev := none } : Text)]).set a
      { nd with Prev := some h.length }, ?_, ?_, ?_⟩
    · simp only [Insert, hnda, hprev, hlook1, Option.getD_some]
    · apply chainB_intro _ _ (by simp) (by simpa using hnodup2)
      simp only [List.nil_append]
      apply segB_cons_intro _ _ _ _ (a :: ys) ({ S := s, Next := some a, Prev := none } : Text)
      · rw [List.getElem?_set_ne (Ne.symm hnida)]
        exact List.getElem?_concat_length h _
      · rfl
      · rfl
      · apply segB_cons_intro _ _ _ _ ys { nd with Prev := some h.length }
        · exact List.getElem?_set_self (by simp; omega)
        · rfl
        · simpa using hnext
        · rw [segB_set_outside _ _ _ _ _ _ hays, segB_grow _ _ _ _ _ hysmem]
          exact hsegys
    · rw [contentOf_set_S _ _ _ _ (by simp [hlook1])]
      rw [show ([] : List Nat) ++ h.length :: a :: ys = h.length :: a :: ys from rfl,
        contentOf_cons, List.getElem?_concat_length]
      rw [show contentOf (h ++ [({ S := s, Next := some a, Prev := none } : Text)]) (a :: ys)
          = contentOf h (a :: ys) from
          contentOf_grow _ _ _ (fun x hx => by
            rw [List.mem_cons] at hx
            rcases hx with rfl | hx
            · exact halt
            · exact hysmem x hx)]
      simp [contentOf]
  | append_singleton zs pl =>
    rw [endOf_concat] at hprev
    have hsegxs2 := hsegxs
    rw [show zs ++ [pl] = zs ++ pl :: [] from rfl,
      segB_append h (some a) none zs pl []] at hsegxs2
    simp only [Bool.and_eq_true] at hsegxs2
    obtain ⟨hsegzs, hsegpl⟩ := hsegxs2
    obtain ⟨pnd, hpnd, hplprev, hplnext, _⟩ :=
      segB_cons_elim h (some a) (endOf none zs) pl [] hsegpl
    have hpllt : pl < h.length := hxsmem pl (by simp)
    have hplne_a : pl ≠ a := fun hm => haxs (hm ▸ List.mem_append_right zs (by simp))
    have hplne_id : pl ≠ h.length := fun hm => absurd (hm ▸ hpllt) (lt_irrefl _)
    have hplzs : pl ∉ zs := by
      have := (List.nodup_append.mp (hndp.of_append_left)).2.2
      intro hm
      exact this hm (by simp)
    have hplys : pl ∉ ys := fun hm =>
      hdisj (List.mem_append_right zs (by simp)) (List.mem_cons_of_mem a hm)
    have hazs : a ∉ zs := fun hm => haxs (List.mem_append_left _ hm)
    have hzsmem : ∀ x ∈ zs, x < h.length := fun x hx => hxsmem x (List.mem_append_left _ hx)
    have hlook1 : (h ++ [({ S := s, Next := some a, Prev := some pl } : Text)])[pl]? =
        some pnd := by
      rw [getElem?_append_lt _ _ _ hpllt]; exact hpnd
    have hlook2 : ((h ++ [({ S := s, Next := some a, Prev := some pl } : Text)]).set pl
        { pnd with Next := some h.length })[a]? = some nd := by
      rw [List.getElem?_set_ne hplne_a, getElem?_append_lt _ _ _ halt]
      exact hnda
    refine ⟨((h ++ [({ S := s, Next := some a, Prev := some pl } : Text)]).set pl
        { pnd with Next := some h.length }).set a { nd with Prev := some h.length },
      ?_, ?_, ?_⟩
    · simp only [Insert, hnda, hprev, hlook1, hlook2, Option.getD_some]
    · apply chainB_intro _ _ (by simp) hnodup2
      rw [segB_append _ none none (zs ++ [pl]) h.length (a :: ys)]
      simp only [Bool.and_eq_true]
      constructor
      · rw [show zs ++ [pl] = zs ++ pl :: [] from rfl,
          segB_append _ (some h.length) none zs pl []]
        simp only [Bool.and_eq_true]
        constructor
        · rw [segB_set_outside _ _ _ _ _ _ hazs, segB_set_outside _ _ _ _ _ _ hplzs,
            segB_grow _ _ _ _ _ hzsmem]
          exact hsegzs
        · apply segB_cons_intro _ _ _ _ [] { pnd with Next := some h.length }
          · rw [List.getElem?_set_ne (Ne.symm hplne_a)]
            exact List.getElem?_set_self (by simp; omega)
          · exact hplprev
          · rfl
          · rfl
      · rw [endOf_concat]
        apply segB_cons_intro _ _ _ _ (a :: ys)
          ({ S := s, Next := some a, Prev := some pl } : Text)
        · rw [List.getElem?_set_ne (Ne.symm hnida), List.getElem?_set_ne hplne_id]
          exact List.getElem?_concat_length h _
        · rfl
        · rfl
        · apply segB_cons_intro _ _ _ _ ys { nd with Prev := some h.length }
          · exact List.getElem?_set_self (by simp; omega)
          · rfl
          · simpa using hnext
          · rw [segB_set_outside _ _ _ _ _ _ hays, segB_set_outside _ _ _ _ _ _ hplys,
              segB_grow _ _ _ _ _ hysmem]
            exact hsegys
    · rw [contentOf_set_S _ _ _ _ (by simp [hlook2])]
      rw [contentOf_set_S _ _ _ _ (by simp [hlook1])]
      rw [contentOf_append, contentOf_cons,
        contentOf_grow _ _ (zs ++ [pl]) hxsmem,
        show contentOf (h ++ [({ S := s, Next := some a, Prev := some pl } : Text)]) (a :: ys)
          = contentOf h (a :: ys) from
          contentOf_grow _ _ _ (fun x hx => by
            rw [List.mem_cons] at hx
            rcases hx with rfl | hx
            · exact halt
            · exact hysmem x hx),
        List.getElem?_concat_length]
      simp [List.append_assoc]

/-! ## Lemmas: `Split` specification -/

theorem segB_congr_links (h h2 : Heap) (q : Option Nat) (ids : List Nat) :
    ∀ (p : Option Nat),
    (∀ a ∈ ids, Option.map (fun nd => (nd.Prev, nd.Next)) (h2[a]?) =
      Option.map (fun nd => (nd.Prev, nd.Next)) (h[a]?)) →
    segB h2 q p ids = segB h q p ids := by
  induction ids with
  | nil => intro p _; rfl
  | cons a rest ih =>
    intro p hag
    have hx := hag a (by simp)
    cases h2a : h2[a]? with
    | none =>
      cases ha : h[a]? with
      | none => simp [segB, h2a, ha]
      | some nd => rw [h2a, ha] at hx; exact absurd hx (by simp)
    | some nd2 =>
      cases ha : h[a]? with
      | none => rw [h2a, ha] at hx; exact absurd hx (by simp)
      | some nd =>
        rw [h2a, ha] at hx
        simp only [Option.map_some', Option.some.injEq, Prod.mk.injEq] at hx
        unfold segB
        rw [h2a, ha]
        show ((nd2.Prev == p) && (nd2.Next == nextTarget q rest) && segB h2 q (some a) rest) =
          ((nd.Prev == p) && (nd.Next == nextTarget q rest) && segB h q (some a) rest)
        rw [hx.1, hx.2, ih (some a) (fun x hxm => hag x (by simp [hxm]))]

theorem chainB_set_keep_links (h : Heap) (a : Nat) (nd nd' : Text) (ids : List Nat)
    (hnda : h[a]? = some nd) (hpv : nd'.Prev = nd.Prev) (hnx : nd'.Next = nd.Next) :
    chainB (h.set a nd') ids = chainB h ids := by
  have halt : a < h.length := (List.getElem?_eq_some.mp hnda).1
  unfold chainB
  congr 1
  apply segB_congr_links
  intro x hx
  rw [List.getElem?_set]
  by_cases hax : a = x
  · subst hax
    simp [halt, hnda, hpv, hnx]
  · simp [hax]

theorem contentOf_set_outside (h : Heap) (a : Nat) (nd' : Text) (ids : List Nat)
    (ha : a ∉ ids) : contentOf (h.set a nd') ids = contentOf h ids := by
  apply contentOf_congr
  intro x hx
  have hne : (List.set h a nd')[x]? = h[x]? :=
    List.getElem?_set_ne (by intro hax; subst hax; exact ha hx)
  rw [hne]

/-- `Split` with a valid index `0 < n ≤ len(S)` on any member of a well-formed
chain succeeds, keeps the chain well-formed, and preserves the content: the
returned node holds the trailing part (or is the same node when `n = len`). -/
theorem Split_spec (h : Heap) (xs ys : List Nat) (a : Nat) (nd : Text) (n : Int)
    (hc : chainB h (xs ++ a :: ys) = true) (hnda : h[a]? = some nd)
    (hn0 : 0 < n) (hnlen : n ≤ (nd.S.length : Int)) :
    ∃ h2 r ids2, Split h a n = .ok (h2, r) ∧ r ∈ ids2 ∧ a ∈ ids2 ∧
      chainB h2 ids2 = true ∧
      contentOf h2 ids2 = contentOf h (xs ++ a :: ys) := by
  have hlen0 : nd.S.length ≠ 0 := by
    intro hz
    rw [hz] at hnlen
    omega
  by_cases heq : nd.S.length = n.toNat
  · -- no-op case: n = len(S)
    refine ⟨h, a, xs ++ a :: ys, ?_, by simp, by simp, hc, rfl⟩
    simp only [Split, hnda]
    rw [if_neg (by omega), if_neg (by omega), if_pos (Or.inl heq)]
  · -- a real split: n < len(S)
    have hnlt : n.toNat < nd.S.length := by omega
    obtain ⟨hne, hndp, hseg⟩ := chainB_elim _ _ hc
    have hmem := segB_mem_lt h none none _ hseg
    have halt : a < h.length := hmem a (by simp)
    have hseg2 := hseg
    rw [segB_append h none none xs a ys] at hseg2
    simp only [Bool.and_eq_true] at hseg2
    obtain ⟨hsegxs, hsegays⟩ := hseg2
    obtain ⟨nd', hnd', hprev, hnext, hsegys⟩ :=
      segB_cons_elim h none (endOf none xs) a ys hsegays
    rw [hnda, Option.some.injEq] at hnd'
    subst hnd'
    have haxs : a ∉ xs := fun hm => ((List.nodup_append.mp hndp).2.2) hm (by simp)
    have hchain1 : chainB (h.set a { nd with S := nd.S.take n.toNat }) (xs ++ a :: ys) = true := by
      rw [chainB_set_keep_links h a nd { nd with S := nd.S.take n.toNat } (xs ++ a :: ys)
        hnda rfl rfl]
      exact hc
    cases ys with
    | nil =>
      -- the fragment was the tail: a fresh node is linked after it
      have hnone : nd.Next = none := by simpa [nextTarget] using hnext
      have hla : (List.set h a
          { S := nd.S.take n.toNat, Next := some h.length, Prev := nd.Prev } ++
          [{ S := nd.S.drop n.toNat, Next := none, Prev := some a }] : Heap)[a]? =
          some { S := nd.S.take n.toNat, Next := some h.length, Prev := nd.Prev } := by
        rw [getElem?_append_lt _ _ _ (by rw [List.length_set]; exact halt)]
        exact List.getElem?_set_self halt
      have hlb : (List.set h a
          { S := nd.S.take n.toNat, Next := some h.length, Prev := nd.Prev } ++
          [{ S := nd.S.drop n.toNat, Next := none, Prev := some a }] : Heap)[h.length]? =
          some { S := nd.S.drop n.toNat, Next := none, Prev := some a } := by
        rw [List.getElem?_append_right (by rw [List.length_set])]
        simp [List.length_set]
      refine ⟨(List.set h a
          { S := nd.S.take n.toNat, Next := some h.length, Prev := nd.Prev }) ++
        [{ S := nd.S.drop n.toNat, Next := none, Prev := some a }], h.length,
        xs ++ a :: [h.length], ?_, by simp, by simp, ?_, ?_⟩
      · simp only [Split, hnda]
        rw [if_neg (by omega), if_neg (by omega), if_neg (by omega)]
        simp only [hnone]
        rw [show (List.set h a { S := nd.S.take n.toNat, Next := none, Prev := nd.Prev } :
            Heap).length = h.length from List.length_set h a _]
        rw [List.set_set]
      · apply chainB_intro _ _ (by simp)
        · have hnid : h.length ∉ xs ++ a :: ([] : List Nat) := by
            intro hm
            exact absurd (hmem _ hm) (lt_irrefl _)
          have hdn : ((xs ++ [a]) ++ [h.length]).Nodup := by
            rw [List.nodup_append]
            refine ⟨by simpa using hndp, by simp, ?_⟩
            intro x hx
            simp only [List.mem_singleton]
            intro hxx
            subst hxx
            exact hnid (by simpa using hx)
          simpa using hdn
        · rw [show xs ++ a :: [h.length] = xs ++ a :: h.length :: [] from rfl,
            segB_append _ none none xs a (h.length :: [])]
          simp only [Bool.and_eq_true]
          constructor
          · rw [segB_grow _ _ _ _ _ (fun x hx => by
                rw [List.length_set]
                exact hmem x (by simp [hx])),
              segB_set_outside _ _ _ _ _ _ haxs]
            exact hsegxs
          · apply segB_cons_intro _ _ _ _ (h.length :: [])
              ({ S := nd.S.take n.toNat, Next := some h.length, Prev := nd.Prev } : Text)
            · exact hla
            · exact hprev
            · rfl
            · apply segB_cons_intro _ _ _ _ []
                ({ S := nd.S.drop n.toNat, Next := none, Prev := some a } : Text)
              · exact hlb
              · rfl
              · rfl
              · rfl
      · rw [show xs ++ a :: [h.length] = xs ++ [a, h.length] from rfl,
          contentOf_append, contentOf_append,
          contentOf_grow _ _ xs (fun x hx => by
            rw [List.length_set]
            exact hmem x (by simp [hx])),
          contentOf_set_outside _ _ _ _ haxs]
        congr 1
        simp [contentOf, hla, hlb, hnda, List.take_append_drop]
    | cons y ys' =>
      -- interior fragment: the trailing part is inserted before the old successor
      have hnexty : nd.Next = some y := by simpa [nextTarget] using hnext
      rw [hnexty] at hchain1
      obtain ⟨ynd, hynd, _, _, _⟩ := segB_cons_elim h none (some a) y ys' hsegys
      have hyne_a : y ≠ a := by
        intro hm
        subst hm
        exact (List.nodup_cons.mp ((List.nodup_append.mp hndp).2.1)).1 (by simp)
      have hyndh1 : (List.set h a
          { S := nd.S.take n.toNat, Next := some y, Prev := nd.Prev } : Heap)[y]? = some ynd := by
        rw [List.getElem?_set_ne (fun hay => hyne_a hay.symm)]
        exact hynd
      have hchain1' : chainB (List.set h a
          { S := nd.S.take n.toNat, Next := some y, Prev := nd.Prev } : Heap)
          ((xs ++ [a]) ++ y :: ys') = true := by
        rw [show (xs ++ [a]) ++ y :: ys' = xs ++ a :: y :: ys' by simp]
        exact hchain1
      obtain ⟨h3, hins, hch3, hcont3⟩ :=
        Insert_spec (List.set h a { S := nd.S.take n.toNat, Next := some y, Prev := nd.Prev })
          (xs ++ [a]) ys' y ynd (nd.S.drop n.toNat) hchain1' hyndh1
      rw [List.length_set] at hins hch3 hcont3
      refine ⟨h3, h.length, (xs ++ [a]) ++ h.length :: y :: ys', ?_, by simp, by simp, hch3, ?_⟩
      · simp only [Split, hnda]
        rw [if_neg (by omega), if_neg (by omega), if_neg (by omega)]
        simp only [hnexty]
        rw [hins]
      · rw [hcont3]
        rw [contentOf_append,
          contentOf_set_outside _ _ _ _ haxs,
          show contentOf (List.set h a
              { S := nd.S.take n.toNat, Next := some y, Prev := nd.Prev } : Heap) [a] =
            (nd.S.take n.toNat) ++ [] from by
            simp [contentOf, List.getElem?_set_self halt],
          show contentOf (List.set h a
              { S := nd.S.take n.toNat, Next := some y, Prev := nd.Prev } : Heap) (y :: ys') =
            contentOf h (y :: ys') from
            contentOf_set_outside _ _ _ _ (by
              intro hm
              exact (List.nodup_cons.mp ((List.nodup_append.mp hndp).2.1)).1 hm)]
        simp [contentOf_cons, contentOf_append, hnda, hynd, List.take_append_drop, List.append_assoc]

/-! ## Lemmas: `appendOne` / `prependOne` specifications -/

theorem appendOne_spec (h : Heap) (ids : List Nat) (a : Nat) (s : Str)
    (hc : chainB h ids = true) (ha : a ∈ ids) :
    ∃ h2, appendOne h a s = some (h2, h.length) ∧
      chainB h2 (ids ++ [h.length]) = true ∧
      contentOf h2 (ids ++ [h.length]) = contentOf h ids ++ s := by
  obtain ⟨hne, hndp, hseg⟩ := chainB_elim _ _ hc
  have hmem := segB_mem_lt h none none _ hseg
  have hlen := chainB_length_le _ _ hc
  -- the tail walk reaches the chain's last node
  have htail : tailFrom h (h.length + 1) a = some (ids.getLast hne) := by
    obtain ⟨xs, ys, rfl⟩ := List.append_of_mem ha
    have hseg2 := hseg
    rw [segB_append h none none xs a ys] at hseg2
    simp only [Bool.and_eq_true] at hseg2
    have hys : ys.length < h.length + 1 := by
      rw [List.length_append, List.length_cons] at hlen
      omega
    rw [tailFrom_seg h ys a (endOf none xs) (h.length + 1) hseg2.2 hys]
    rw [List.getLast?_eq_getLast _ (by simp), Option.some.injEq]
    rw [List.getLast_append]
    simp
  set tl := ids.getLast hne with htldef
  have htlids : ids.dropLast ++ [tl] = ids := List.dropLast_append_getLast hne
  have htlmem : tl ∈ ids := List.getLast_mem hne
  have htllt : tl < h.length := hmem tl htlmem
  obtain ⟨tlnd, htlnd, htlprev, htlnext, _⟩ := by
    have hseg3 := hseg
    rw [← htlids, segB_append h none none ids.dropLast tl []] at hseg3
    simp only [Bool.and_eq_true] at hseg3
    exact segB_cons_elim h none (endOf none ids.dropLast) tl [] hseg3.2
  have htlinit : tl ∉ ids.dropLast := by
    have := hndp
    rw [← htlids, List.nodup_append] at this
    intro hm
    exact this.2.2 hm (by simp)
  have hinitseg : segB h (some tl) none ids.dropLast = true := by
    have hseg3 := hseg
    rw [← htlids, segB_append h none none ids.dropLast tl []] at hseg3
    simp only [Bool.and_eq_true] at hseg3
    exact hseg3.1
  have hnidmem : h.length ∉ ids := fun hm => absurd (hmem _ hm) (lt_irrefl _)
  have hla : ((h.set tl { tlnd with Next := some h.length }) ++
      [({ S := s, Next := none, Prev := some tl } : Text)])[tl]? =
      some { tlnd with Next := some h.length } := by
    rw [getElem?_append_lt _ _ _ (by rw [List.length_set]; exact htllt)]
    exact List.getElem?_set_self htllt
  have hlb : ((h.set tl { tlnd with Next := some h.length }) ++
      [({ S := s, Next := none, Prev := some tl } : Text)])[h.length]? =
      some { S := s, Next := none, Prev := some tl } := by
    rw [List.getElem?_append_right (by rw [List.length_set])]
    simp [List.length_set]
  refine ⟨(h.set tl { tlnd with Next := some h.length }) ++
      [({ S := s, Next := none, Prev := some tl } : Text)], ?_, ?_, ?_⟩
  · simp only [appendOne, htail, htlnd]
  · apply chainB_intro _ _ (by simp)
    · rw [show ids ++ [h.length] = ids ++ h.length :: [] from rfl]
      rw [List.nodup_append]
      exact ⟨hndp, by simp, by
        intro x hx
        simp only [List.mem_cons, List.not_mem_nil, or_false]
        intro hxx
        subst hxx
        exact hnidmem hx⟩
    · rw [show ids ++ [h.length] = (ids.dropLast ++ [tl]) ++ h.length :: [] from by
        rw [htlids]]
      rw [segB_append _ none none (ids.dropLast ++ [tl]) h.length []]
      simp only [Bool.and_eq_true]
      constructor
      · rw [show ids.dropLast ++ [tl] = ids.dropLast ++ tl :: [] from rfl,
          segB_append _ (some h.length) none ids.dropLast tl []]
        simp only [Bool.and_eq_true]
        constructor
        · rw [segB_grow _ _ _ _ _ (fun x hx => by
              rw [List.length_set]
              exact hmem x (List.dropLast_subset ids hx)),
            segB_set_outside _ _ _ _ _ _ htlinit]
          exact hinitseg
        · apply segB_cons_intro _ _ _ _ [] { tlnd with Next := some h.length }
          · exact hla
          · exact htlprev
          · rfl
          · rfl
      · rw [endOf_concat]
        apply segB_cons_intro _ _ _ _ [] ({ S := s, Next := none, Prev := some tl } : Text)
        · exact hlb
        · rfl
        · rfl
        · rfl
  · rw [contentOf_append,
      show contentOf ((h.set tl { tlnd with Next := some h.length }) ++
          [({ S := s, Next := none, Prev := some tl } : Text)]) ids = contentOf h ids from by
        rw [contentOf_grow _ _ _ (fun x hx => by
            rw [List.length_set]
            exact hmem x hx),
          contentOf_set_S _ _ _ _ (by simp [htlnd])]]
    congr 1
    simp [contentOf, hlb]

theorem prependOne_spec (h : Heap) (ids : List Nat) (a : Nat) (s : Str)
    (hc : chainB h ids = true) (ha : a ∈ ids) :
    ∃ h2, prependOne h a s = some (h2, h.length) ∧
      chainB h2 (h.length :: ids) = true ∧
      contentOf h2 (h.length :: ids) = s ++ contentOf h ids := by
  obtain ⟨hne, hndp, hseg⟩ := chainB_elim _ _ hc
  have hmem := segB_mem_lt h none none _ hseg
  have hlen := chainB_length_le _ _ hc
  obtain ⟨xs, ys, rfl⟩ := List.append_of_mem ha
  have hxs : xs.length < h.length + 1 := by
    rw [List.length_append, List.length_cons] at hlen
    omega
  have hhd : headFrom h (h.length + 1) a = (xs ++ [a]).head? := by
    cases ys with
    | nil => exact headFrom_seg h xs a none (h.length + 1) hseg hxs
    | cons y ys' =>
      have hseg2 := hseg
      rw [show xs ++ a :: y :: ys' = (xs ++ [a]) ++ y :: ys' by simp,
        segB_append h none none (xs ++ [a]) y ys'] at hseg2
      simp only [Bool.and_eq_true] at hseg2
      exact headFrom_seg h xs a (some y) (h.length + 1) hseg2.1 hxs
  cases hids : xs ++ a :: ys with
  | nil => exact absurd hids (by simp)
  | cons hd0 rest =>
    have hhd2 : (xs ++ [a]).head? = some hd0 := by
      cases xs with
      | nil => simpa using congrArg List.head? hids
      | cons x xs' => simpa using congrArg List.head? hids
    rw [hids] at hseg hndp hmem hne hc
    obtain ⟨hnd0, hhd0nd, hhd0prev, hhd0next, hrestseg⟩ :=
      segB_cons_elim h none none hd0 rest hseg
    have hhd0lt : hd0 < h.length := hmem hd0 (by simp)
    have hnidmem : h.length ∉ hd0 :: rest := fun hm => absurd (hmem _ hm) (lt_irrefl _)
    have hhd0rest : hd0 ∉ rest := (List.nodup_cons.mp hndp).1
    have hla : ((h.set hd0 { hnd0 with Prev := some h.length }) ++
        [({ S := s, Next := some hd0, Prev := none } : Text)])[hd0]? =
        some { hnd0 with Prev := some h.length } := by
      rw [getElem?_append_lt _ _ _ (by rw [List.length_set]; exact hhd0lt)]
      exact List.getElem?_set_self hhd0lt
    have hlb : ((h.set hd0 { hnd0 with Prev := some h.length }) ++
        [({ S := s, Next := some hd0, Prev := none } : Text)])[h.length]? =
        some { S := s, Next := some hd0, Prev := none } := by
      rw [List.getElem?_append_right (by rw [List.length_set])]
      simp [List.length_set]
    refine ⟨(h.set hd0 { hnd0 with Prev := some h.length }) ++
        [({ S := s, Next := some hd0, Prev := none } : Text)], ?_, ?_, ?_⟩
    · simp only [prependOne, hhd, hhd2, hhd0nd]
    · apply chainB_intro _ _ (by simp)
      · exact List.nodup_cons.mpr ⟨hnidmem, hndp⟩
      · apply segB_cons_intro _ _ _ _ (hd0 :: rest)
          ({ S := s, Next := some hd0, Prev := none } : Text)
        · exact hlb
        · rfl
        · rfl
        · apply segB_cons_intro _ _ _ _ rest { hnd0 with Prev := some h.length }
          · exact hla
          · rfl
          · simpa using hhd0next
          · rw [segB_grow _ _ _ _ _ (fun x hx => by
                rw [List.length_set]
                exact hmem x (by simp [hx])),
              segB_set_outside _ _ _ _ _ _ hhd0rest]
            exact hrestseg
    · rw [contentOf_cons, hlb,
        show contentOf ((h.set hd0 { hnd0 with Prev := some h.length }) ++
            [({ S := s, Next := some hd0, Prev := none } : Text)]) (hd0 :: rest) =
          contentOf h (hd0 :: rest) from by
          rw [contentOf_grow _ _ _ (fun x hx => by
              rw [List.length_set]
              exact hmem x hx),
            contentOf_set_S _ _ _ _ (by simp [hhd0nd])]]
      simp

/-! ## Lemmas: the variadic `Append` / `Prepend` and the constructor -/

theorem Append_spec : ∀ (ss : List Str) (h : Heap) (ids : List Nat) (a : Nat),
    chainB h ids = true → a ∈ ids →
    ∃ h2 a2 ids2, Append h a ss = some (h2, a2) ∧ chainB h2 ids2 = true ∧ a2 ∈ ids2 ∧
      contentOf h2 ids2 = contentOf h ids ++ ss.flatten := by
  intro ss
  induction ss with
  | nil =>
    intro h ids a hc ha
    exact ⟨h, a, ids, rfl, hc, ha, by simp⟩
  | cons s rest ih =>
    intro h ids a hc ha
    obtain ⟨h2, hap, hch2, hcont2⟩ := appendOne_spec h ids a s hc ha
    obtain ⟨h3, a3, ids3, hrec, hch3, ha3, hcont3⟩ :=
      ih h2 (ids ++ [h.length]) h.length hch2 (by simp)
    refine ⟨h3, a3, ids3, ?_, hch3, ha3, ?_⟩
    · simp only [Append, hap, hrec]
    · rw [hcont3, hcont2]
      simp [List.append_assoc]

theorem prependSeq_spec : ∀ (ss : List Str) (h : Heap) (ids : List Nat) (a : Nat),
    chainB h ids = true → a ∈ ids →
    ∃ h2 a2 ids2, prependSeq h a ss = some (h2, a2) ∧ chainB h2 ids2 = true ∧ a2 ∈ ids2 ∧
      contentOf h2 ids2 = ss.reverse.flatten ++ contentOf h ids := by
  intro ss
  induction ss with
  | nil =>
    intro h ids a hc ha
    exact ⟨h, a, ids, rfl, hc, ha, by simp⟩
  | cons s rest ih =>
    intro h ids a hc ha
    obtain ⟨h2, hap, hch2, hcont2⟩ := prependOne_spec h ids a s hc ha
    obtain ⟨h3, a3, ids3, hrec, hch3, ha3, hcont3⟩ :=
      ih h2 (h.length :: ids) h.length hch2 (by simp)
    refine ⟨h3, a3, ids3, ?_, hch3, ha3, ?_⟩
    · simp only [prependSeq, hap, hrec]
    · rw [hcont3, hcont2]
      simp [List.append_assoc]

theorem Prepend_spec (ss : List Str) (h : Heap) (ids : List Nat) (a : Nat)
    (hc : chainB h ids = true) (ha : a ∈ ids) :
    ∃ h2 a2 ids2, Prepend h a ss = some (h2, a2) ∧ chainB h2 ids2 = true ∧ a2 ∈ ids2 ∧
      contentOf h2 ids2 = ss.flatten ++ contentOf h ids := by
  obtain ⟨h2, a2, ids2, hrun, hch, ha2, hcont⟩ := prependSeq_spec ss.reverse h ids a hc ha
  exact ⟨h2, a2, ids2, hrun, hch, ha2, by simpa using hcont⟩

theorem StringCtor_spec (ss : List Str) :
    ∃ h a ids, StringCtor ss = some (h, a) ∧ chainB h ids = true ∧ a ∈ ids ∧
      contentOf h ids = ss.flatten := by
  cases ss with
  | nil =>
    refine ⟨[{ S := [], Next := none, Prev := none }], 0, [0], rfl, by rfl, by simp, by
      simp [contentOf]⟩
  | cons s0 rest =>
    have hbase : chainB [({ S := s0, Next := none, Prev := none } : Text)] [0] = true := by
      simp [chainB, segB, nextTarget]
    obtain ⟨h2, a2, ids2, hrun, hch, ha2, hcont⟩ :=
      Append_spec rest [({ S := s0, Next := none, Prev := none } : Text)] [0] 0 hbase (by simp)
    refine ⟨h2, a2, ids2, hrun, hch, ha2, ?_⟩
    rw [hcont]
    simp [contentOf]

theorem runOps_spec : ∀ (ops : List ChainOp) (h : Heap) (ids : List Nat) (a : Nat),
    chainB h ids = true → a ∈ ids →
    ∃ h2 a2 ids2, runOps (some (h, a)) ops = some (h2, a2) ∧ chainB h2 ids2 = true ∧
      a2 ∈ ids2 ∧ contentOf h2 ids2 = opsContent (contentOf h ids) ops := by
  intro ops
  induction ops with
  | nil =>
    intro h ids a hc ha
    exact ⟨h, a, ids, rfl, hc, ha, rfl⟩
  | cons op rest ih =>
    intro h ids a hc ha
    cases op with
    | app ss =>
      obtain ⟨h2, a2, ids2, hrun, hch, ha2, hcont⟩ := Append_spec ss h ids a hc ha
      obtain ⟨h3, a3, ids3, hrec, hch3, ha3, hcont3⟩ := ih h2 ids2 a2 hch ha2
      refine ⟨h3, a3, ids3, ?_, hch3, ha3, ?_⟩
      · simp only [runOps, hrun, hrec]
      · rw [hcont3, hcont]
        rfl
    | pre ss =>
      obtain ⟨h2, a2, ids2, hrun, hch, ha2, hcont⟩ := Prepend_spec ss h ids a hc ha
      obtain ⟨h3, a3, ids3, hrec, hch3, ha3, hcont3⟩ := ih h2 ids2 a2 hch ha2
      refine ⟨h3, a3, ids3, ?_, hch3, ha3, ?_⟩
      · simp only [runOps, hrun, hrec]
      · rw [hcont3, hcont]
        rfl

/-! ## Claims C4, C5, C6, C7, C9 -/

/-- C4: `Split` with a valid offset `0 < n ≤ len(S)` on any fragment of a
well-formed chain, with no other mutation, preserves the chain's logical
content exactly: `Head().String()` is equal before and after the call. -/
theorem claim_C4 (h : Heap) (ids : List Nat) (a : Nat) (nd : Text) (n : Int)
    (hc : chainB h ids = true) (ha : a ∈ ids) (hnda : h[a]? = some nd)
    (hn0 : 0 < n) (hnlen : n ≤ (nd.S.length : Int)) :
    ∃ h2 r, Split h a n = .ok (h2, r) ∧ StringOf h2 r = StringOf h a := by
  obtain ⟨xs, ys, rfl⟩ := List.append_of_mem ha
  obtain ⟨h2, r, ids2, hsp, hr, _, hch2, hcont⟩ := Split_spec h xs ys a nd n hc hnda hn0 hnlen
  refine ⟨h2, r, hsp, ?_⟩
  rw [StringOf_chain h2 ids2 r hch2 hr, StringOf_chain h _ a hc (by simp), hcont]

/-- C4 witness: splitting `"ab"` at 1 inside the chain `"ab" ↔ "cd"`. -/
theorem claim_C4_witness :
    ∃ h2 r,
      Split [({ S := ('a' :: 'b' :: []), Next := some 1, Prev := none } : Text),
        ({ S := ('c' :: 'd' :: []), Next := none, Prev := some 0 } : Text)] 0 1 =
        .ok (h2, r) ∧
      StringOf h2 r =
        StringOf [({ S := ('a' :: 'b' :: []), Next := some 1, Prev := none } : Text),
          ({ S := ('c' :: 'd' :: []), Next := none, Prev := some 0 } : Text)] 0 :=
  claim_C4 [({ S := ('a' :: 'b' :: []), Next := some 1, Prev := none } : Text),
      ({ S := ('c' :: 'd' :: []), Next := none, Prev := some 0 } : Text)]
    [0, 1] 0 ({ S := ('a' :: 'b' :: []), Next := some 1, Prev := none } : Text) 1
    (by decide) (by decide) rfl (by decide) (by decide)

/-- C5, counterexample: on an empty fragment `Split` is not a no-op — every
offset trips a panic guard (`n = 0` hits "split index must be > 0", `n = 1`
hits the `n > len` check), instead of returning the same fragment. -/
theorem claim_C5_counterexample :
    Split [({ S := [], Next := none, Prev := none } : Text)] 0 0 =
      .error SplitPanic.idxLow ∧
    Split [({ S := [], Next := none, Prev := none } : Text)] 0 1 =
      .error SplitPanic.idxHigh ∧
    ¬ (Split [({ S := [], Next := none, Prev := none } : Text)] 0 0 =
      .ok ([({ S := [], Next := none, Prev := none } : Text)], 0)) := by
  refine ⟨rfl, rfl, ?_⟩
  intro hcon
  rw [show Split [({ S := [], Next := none, Prev := none } : Text)] 0 0 =
    .error SplitPanic.idxLow from rfl] at hcon
  exact Except.noConfusion hcon

/-- C5 (amended): `Split(n)` with `n = len(S)` and `n > 0` is a no-op that
returns the same fragment with the heap unchanged; on an empty fragment there
is no valid offset — every call fails fast in one of the two panic guards
(the `len(S) == 0` no-op test in the code is dead, since the guards fire
first). -/
theorem claim_C5 (h : Heap) (a : Nat) (nd : Text) (n : Int) (hnda : h[a]? = some nd) :
    (0 < n → n.toNat = nd.S.length → Split h a n = .ok (h, a)) ∧
    (nd.S = [] → ∃ e, Split h a n = .error e) := by
  constructor
  · intro hn0 hlen
    simp only [Split, hnda]
    rw [if_neg (by omega), if_neg (by omega), if_pos (Or.inl hlen.symm)]
  · intro hS
    by_cases hn : (nd.S.length : Int) < n
    · exact ⟨SplitPanic.idxHigh, by simp only [Split, hnda]; rw [if_pos hn]⟩
    · refine ⟨SplitPanic.idxLow, ?_⟩
      simp only [Split, hnda]
      rw [if_neg hn, if_pos (by rw [hS] at hn; simp at hn; omega)]

/-- C5 witness: the no-op at `n = len` on `"ab"`, and the failure on an empty
fragment at `n = 5`. -/
theorem claim_C5_witness :
    Split [({ S := ('a' :: 'b' :: []), Next := none, Prev := none } : Text)] 0 2 =
      .ok ([({ S := ('a' :: 'b' :: []), Next := none, Prev := none } : Text)], 0) ∧
    ∃ e, Split [({ S := [], Next := none, Prev := none } : Text)] 0 5 = .error e :=
  ⟨(claim_C5 [({ S := ('a' :: 'b' :: []), Next := none, Prev := none } : Text)] 0
      ({ S := ('a' :: 'b' :: []), Next := none, Prev := none } : Text) 2 rfl).1
      (by decide) (by decide),
   (claim_C5 [({ S := [], Next := none, Prev := none } : Text)] 0
      ({ S := [], Next := none, Prev := none } : Text) 5 rfl).2 rfl⟩

/-- C6, counterexample: `Insert` on the chain head does not fail — the nil
predecessor is guarded, and the call splices the new fragment in before the
head: on the one-fragment chain `"c"`, `Insert("ab")` yields a well-formed
two-fragment chain materializing to `"abc"` with the new node as head. -/
theorem claim_C6_counterexample :
    Insert [({ S := ('c' :: []), Next := none, Prev := none } : Text)] 0 ('a' :: 'b' :: []) =
      ([({ S := ('c' :: []), Next := none, Prev := some 1 } : Text),
        ({ S := ('a' :: 'b' :: []), Next := some 0, Prev := none } : Text)], 1) ∧
    chainB [({ S := ('c' :: []), Next := none, Prev := some 1 } : Text),
        ({ S := ('a' :: 'b' :: []), Next := some 0, Prev := none } : Text)] [1, 0] = true ∧
    StringOf [({ S := ('c' :: []), Next := none, Prev := some 1 } : Text),
        ({ S := ('a' :: 'b' :: []), Next := some 0, Prev := none } : Text)] 0 =
      some ('a' :: 'b' :: 'c' :: []) :=
  ⟨rfl, rfl, rfl⟩

/-- C6 (amended): `Insert(s)` on the head fragment of a well-formed chain
succeeds: the old-predecessor update is skipped behind a nil check, the new
fragment is spliced immediately before the head and becomes the new head,
and the content gains `s` at the front. -/
theorem claim_C6 (h : Heap) (ys : List Nat) (a : Nat) (nd : Text) (s : Str)
    (hc : chainB h (a :: ys) = true) (hnda : h[a]? = some nd) :
    ∃ h3, Insert h a s = (h3, h.length) ∧
      chainB h3 (h.length :: a :: ys) = true ∧
      contentOf h3 (h.length :: a :: ys) = s ++ contentOf h (a :: ys) := by
  obtain ⟨h3, hins, hch, hcont⟩ := Insert_spec h [] ys a nd s (by simpa using hc) hnda
  exact ⟨h3, hins, by simpa using hch, by simpa [contentOf] using hcont⟩

/-- C6 witness: the amended statement at the concrete head-insert above. -/
theorem claim_C6_witness :
    ∃ h3, Insert [({ S := ('c' :: []), Next := none, Prev := none } : Text)] 0
        ('a' :: 'b' :: []) = (h3, 1) ∧
      chainB h3 [1, 0] = true ∧
      contentOf h3 [1, 0] = ('a' :: 'b' :: []) ++
        contentOf [({ S := ('c' :: []), Next := none, Prev := none } : Text)] (0 :: []) :=
  claim_C6 [({ S := ('c' :: []), Next := none, Prev := none } : Text)] [] 0
    ({ S := ('c' :: []), Next := none, Prev := none } : Text) ('a' :: 'b' :: [])
    (by decide) rfl

/-- C7: for every constructor argument list and every sequence of
`Append`/`Prepend` calls, `String()` equals the concatenation of the arguments
in the order they were logically placed — `Append` groups in order at the end,
`Prepend` groups in order at the front — and in particular
`Prepend("a","b")` on `"c"` materializes to `"abc"`. -/
theorem claim_C7 (ss : List Str) (ops : List ChainOp) :
    (∃ h2 a2, runOps (StringCtor ss) ops = some (h2, a2) ∧
      StringOf h2 a2 = some (opsContent ss.flatten ops)) ∧
    (∃ h2 a2, runOps (StringCtor [('c' :: [])]) [ChainOp.pre [('a' :: []), ('b' :: [])]] =
      some (h2, a2) ∧ StringOf h2 a2 = some ('a' :: 'b' :: 'c' :: [])) := by
  constructor
  · obtain ⟨h0, a0, ids0, hctor, hch0, ha0, hcont0⟩ := StringCtor_spec ss
    obtain ⟨h2, a2, ids2, hrun, hch2, ha2, hcont2⟩ := runOps_spec ops h0 ids0 a0 hch0 ha0
    refine ⟨h2, a2, ?_, ?_⟩
    · rw [hctor]
      exact hrun
    · rw [StringOf_chain h2 ids2 a2 hch2 ha2, hcont2, hcont0]
  · exact ⟨_, _, rfl, rfl⟩

/-- C9: every chain operation with valid arguments — `Insert`, `Split`,
`Append`, `Prepend` — maps a well-formed chain (`chainB`: finite, acyclic,
nil-terminated in both directions, neighbour links mutually consistent) to a
well-formed chain containing the returned cursor. -/
theorem claim_C9 (h : Heap) (ids : List Nat) (a : Nat) (nd : Text) (s : Str) (n : Int)
    (ss : List Str)
    (hc : chainB h ids = true) (ha : a ∈ ids) (hnda : h[a]? = some nd)
    (hn0 : 0 < n) (hnlen : n ≤ (nd.S.length : Int)) :
    (∃ h2 b ids2, Insert h a s = (h2, b) ∧ chainB h2 ids2 = true ∧ b ∈ ids2 ∧ a ∈ ids2) ∧
    (∃ h2 r ids2, Split h a n = .ok (h2, r) ∧ chainB h2 ids2 = true ∧ r ∈ ids2 ∧ a ∈ ids2) ∧
    (∃ h2 a2 ids2, Append h a ss = some (h2, a2) ∧ chainB h2 ids2 = true ∧ a2 ∈ ids2) ∧
    (∃ h2 a2 ids2, Prepend h a ss = some (h2, a2) ∧ chainB h2 ids2 = true ∧ a2 ∈ ids2) := by
  obtain ⟨xs, ys, rfl⟩ := List.append_of_mem ha
  refine ⟨?_, ?_, ?_, ?_⟩
  · obtain ⟨h3, hins, hch, _⟩ := Insert_spec h xs ys a nd s hc hnda
    exact ⟨h3, h.length, _, hins, hch, by simp, by simp⟩
  · obtain ⟨h2, r, ids2, hsp, hr, haa, hch, _⟩ := Split_spec h xs ys a nd n hc hnda hn0 hnlen
    exact ⟨h2, r, ids2, hsp, hch, hr, haa⟩
  · obtain ⟨h2, a2, ids2, hap, hch, ha2, _⟩ := Append_spec ss h _ a hc (by simp)
    exact ⟨h2, a2, ids2, hap, hch, ha2⟩
  · obtain ⟨h2, a2, ids2, hap, hch, ha2, _⟩ := Prepend_spec ss h _ a hc (by simp)
    exact ⟨h2, a2, ids2, hap, hch, ha2⟩

/-- C9 witness: all four operations on the chain `"ab" ↔ "cd"` at its head. -/
theorem claim_C9_witness :
    (∃ h2 b ids2,
      Insert [({ S := ('a' :: 'b' :: []), Next := some 1, Prev := none } : Text),
        ({ S := ('c' :: 'd' :: []), Next := none, Prev := some 0 } : Text)] 0 ('x' :: []) =
        (h2, b) ∧ chainB h2 ids2 = true ∧ b ∈ ids2 ∧ 0 ∈ ids2) ∧
    (∃ h2 r ids2,
      Split [({ S := ('a' :: 'b' :: []), Next := some 1, Prev := none } : Text),
        ({ S := ('c' :: 'd' :: []), Next := none, Prev := some 0 } : Text)] 0 1 =
        .ok (h2, r) ∧ chainB h2 ids2 = true ∧ r ∈ ids2 ∧ 0 ∈ ids2) ∧
    (∃ h2 a2 ids2,
      Append [({ S := ('a' :: 'b' :: []), Next := some 1, Prev := none } : Text),
        ({ S := ('c' :: 'd' :: []), Next := none, Prev := some 0 } : Text)] 0
        [('u' :: []), ('v' :: [])] =
        some (h2, a2) ∧ chainB h2 ids2 = true ∧ a2 ∈ ids2) ∧
    (∃ h2 a2 ids2,
      Prepend [({ S := ('a' :: 'b' :: []), Next := some 1, Prev := none } : Text),
        ({ S := ('c' :: 'd' :: []), Next := none, Prev := some 0 } : Text)] 0
        [('u' :: []), ('v' :: [])] =
        some (h2, a2) ∧ chainB h2 ids2 = true ∧ a2 ∈ ids2) :=
  claim_C9 [({ S := ('a' :: 'b' :: []), Next := some 1, Prev := none } : Text),
      ({ S := ('c' :: 'd' :: []), Next := none, Prev := some 0 } : Text)]
    [0, 1] 0 ({ S := ('a' :: 'b' :: []), Next := some 1, Prev := none } : Text)
    ('x' :: []) 1 [('u' :: []), ('v' :: [])]
    (by decide) (by decide) rfl (by decide) (by decide)

/-! ## Claim C8: `Style.With` and Go slice aliasing -/

theorem sliceView_length {α : Type} (m : Mem α) (s : GoSlice) (hwf : SliceWF m s) :
    (sliceView m s).length = s.len := by
  obtain ⟨_, hlc, hoc⟩ := hwf
  unfold sliceView
  rw [List.length_take, List.length_drop]
  omega

theorem sliceView_congr {α : Type} (m m2 : Mem α) (s : GoSlice)
    (hag : m2[s.arr]? = m[s.arr]?) : sliceView m2 s = sliceView m s := by
  unfold sliceView
  rw [hag]

/-- The behaviour of one `With` call: the derived slice views the base
formatters followed by the new ones, and no existing backing array is
mutated — the full slice expression `s[:len(s):len(s)]` caps the capacity at
the length, so the append reallocates whenever it has anything to write. -/
theorem StyleWith_spec {α : Type} (m : Mem α) (s : GoSlice) (fs : List α)
    (hwf : SliceWF m s) :
    ∃ m2 s2, StyleWith m s fs = (m2, s2) ∧
      sliceView m2 s2 = sliceView m s ++ fs ∧
      (∀ i, i < m.length → m2[i]? = m[i]?) ∧
      m.length ≤ m2.length ∧ s2.arr < m2.length := by
  obtain ⟨harr, hlc, hoc⟩ := hwf
  cases fs with
  | nil =>
    refine ⟨m.set s.arr (m[s.arr]?.getD []),
      { arr := s.arr, off := s.off, len := s.len + ([] : List α).length, cap := s.len },
      ?_, ?_, ?_, by rw [List.length_set], by rw [List.length_set]; exact harr⟩
    · unfold StyleWith goAppendSlice
      rw [if_pos (by simp)]
      rfl
    · have hself : (m.set s.arr (m[s.arr]?.getD []))[s.arr]? = m[s.arr]? := by
        rw [List.getElem?_set_self harr, List.getElem?_eq_getElem harr]
        rfl
      unfold sliceView
      simp only [hself]
      simp
    · intro i hi
      by_cases hia : s.arr = i
      · subst hia
        rw [List.getElem?_set_self harr, List.getElem?_eq_getElem harr]
        rfl
      · exact List.getElem?_set_ne hia
  | cons f fs' =>
    refine ⟨m ++ [sliceView m { s with cap := s.len } ++ f :: fs'],
      { arr := m.length, off := 0, len := s.len + (f :: fs').length,
        cap := s.len + (f :: fs').length }, ?_, ?_, ?_, by simp, by simp⟩
    · unfold StyleWith goAppendSlice
      rw [if_neg (by simp)]
    · have hview : sliceView m { s with cap := s.len } = sliceView m s := rfl
      unfold sliceView
      simp only [List.getElem?_concat_length, Option.getD_some, List.drop_zero, hview]
      apply List.take_of_length_le
      rw [List.length_append]
      have := sliceView_length m s ⟨harr, hlc, hoc⟩
      simp [this]
    · intro i hi
      exact getElem?_append_lt m _ i hi

/-- C8: `s.With(fs...)` returns a new Style viewing `s`'s formatters followed
by `fs`, mutates no existing backing array (so `s` itself is unchanged), and
two Styles derived independently from the same base never observe each
other's added formatters. -/
theorem claim_C8 {α : Type} (m : Mem α) (s : GoSlice) (fs fs' : List α)
    (hwf : SliceWF m s) :
    ∃ m2 s2, StyleWith m s fs = (m2, s2) ∧
      sliceView m2 s2 = sliceView m s ++ fs ∧
      (∀ i, i < m.length → m2[i]? = m[i]?) ∧
      sliceView m2 s = sliceView m s ∧
      ∃ m3 s3, StyleWith m2 s fs' = (m3, s3) ∧
        sliceView m3 s3 = sliceView m s ++ fs' ∧
        sliceView m3 s2 = sliceView m s ++ fs := by
  obtain ⟨m2, s2, hw1, hv1, hf1, hl1, ha1⟩ := StyleWith_spec m s fs hwf
  have harr := hwf.1
  have hback : m2[s.arr]? = m[s.arr]? := hf1 s.arr harr
  have hwf2 : SliceWF m2 s := by
    refine ⟨lt_of_lt_of_le harr hl1, hwf.2.1, ?_⟩
    rw [hback]
    exact hwf.2.2
  obtain ⟨m3, s3, hw2, hv2, hf2, hl2, _⟩ := StyleWith_spec m2 s fs' hwf2
  refine ⟨m2, s2, hw1, hv1, hf1, sliceView_congr m m2 s hback, m3, s3, hw2, ?_, ?_⟩
  · rw [hv2, sliceView_congr m m2 s hback]
  · rw [sliceView_congr m2 m3 s2 (hf2 s2.arr ha1), hv1]

/-- C8 witness: a base style of two formatters (capacity 3, so an uncapped
append would have written in place) extended twice independently. -/
theorem claim_C8_witness :
    ∃ m2 s2, StyleWith [[1, 2, 3]] ({ arr := 0, off := 0, len := 2, cap := 3 } : GoSlice)
        [9] = (m2, s2) ∧
      sliceView m2 s2 =
        sliceView [[1, 2, 3]] ({ arr := 0, off := 0, len := 2, cap := 3 } : GoSlice) ++ [9] ∧
      (∀ i, i < ([[1, 2, 3]] : Mem Nat).length → m2[i]? = ([[1, 2, 3]] : Mem Nat)[i]?) ∧
      sliceView m2 ({ arr := 0, off := 0, len := 2, cap := 3 } : GoSlice) =
        sliceView [[1, 2, 3]] ({ arr := 0, off := 0, len := 2, cap := 3 } : GoSlice) ∧
      ∃ m3 s3, StyleWith m2 ({ arr := 0, off := 0, len := 2, cap := 3 } : GoSlice) [7] =
          (m3, s3) ∧
        sliceView m3 s3 =
          sliceView [[1, 2, 3]] ({ arr := 0, off := 0, len := 2, cap := 3 } : GoSlice) ++ [7] ∧
        sliceView m3 s2 =
          sliceView [[1, 2, 3]] ({ arr := 0, off := 0, len := 2, cap := 3 } : GoSlice) ++ [9] :=
  claim_C8 [[1, 2, 3]] ({ arr := 0, off := 0, len := 2, cap := 3 } : GoSlice) [9] [7]
    (by refine ⟨by decide, by decide, by decide⟩)

/-! ## Claim C10: the `Indent(n)` formatter -/

theorem noNLB_replicate (n : Nat) : noNLB (List.replicate n ' ') = true := by
  rw [noNLB_iff]
  intro c hc
  rw [List.eq_of_mem_replicate hc]
  decide

theorem linesNL_cons_eq (c : Char) (z : Str) :
    linesNL (c :: z) =
      if c = '\n' then [] :: linesNL z
      else match linesNL z with
        | [] => [[c]]
        | l :: ls => (c :: l) :: ls := rfl

theorem linesNL_cons_nl (z : Str) : linesNL ('\n' :: z) = [] :: linesNL z := by
  rw [linesNL_cons_eq, if_pos rfl]

theorem linesNL_cons_ne (c : Char) (z : Str) (hc : c ≠ '\n') :
    linesNL (c :: z) = (c :: (linesNL z).headI) :: (linesNL z).tail := by
  cases hz : linesNL z with
  | nil => exact absurd hz (linesNL_ne_nil z)
  | cons l ls =>
    rw [linesNL_cons_eq, if_neg hc, hz]
    rfl

theorem linesNL_append_noNL (a z : Str) (ha : noNLB a = true) :
    linesNL (a ++ z) = (a ++ (linesNL z).headI) :: (linesNL z).tail := by
  induction a with
  | nil =>
    cases hz : linesNL z with
    | nil => exact absurd hz (linesNL_ne_nil z)
    | cons l ls => simp [hz]
  | cons c r ih =>
    rw [noNLB_iff] at ha
    have hc : c ≠ '\n' := ha c (by simp)
    have hr : noNLB r = true := (noNLB_iff r).mpr (fun x hx => ha x (by simp [hx]))
    rw [List.cons_append, linesNL_cons_ne c (r ++ z) hc, ih hr]
    simp

theorem linesNL_head_or_tail (d : Char) (r' : Str) :
    (linesNL (d :: r')).headI ≠ [] ∨ (linesNL (d :: r')).tail ≠ [] := by
  by_cases hd : d = '\n'
  · subst hd
    right
    rw [linesNL_cons_nl]
    simpa using linesNL_ne_nil r'
  · left
    rw [linesNL_cons_ne d r' hd]
    simp

theorem mapIndentTail_cons (n : Nat) (l : Str) (ls : List Str)
    (hne : l ≠ [] ∨ ls ≠ []) :
    mapIndentTail n (l :: ls) = (List.replicate n ' ' ++ l) :: mapIndentTail n ls := by
  cases ls with
  | nil =>
    rcases hne with hne | hne
    · simp [mapIndentTail, hne]
    · exact absurd rfl hne
  | cons l2 ls2 => rfl

theorem indentRest_cons_ne (n : Nat) (c : Char) (r : Str) (hc : c ≠ '\n') :
    indentRest n (c :: r) = c :: indentRest n r := by
  cases r with
  | nil => simp [indentRest, hc]
  | cons d r' => simp [indentRest, hc]

theorem indentRest_lines (n : Nat) : ∀ s : Str,
    linesNL (indentRest n s) = (linesNL s).headI :: mapIndentTail n (linesNL s).tail := by
  intro s
  induction s with
  | nil => simp [indentRest, linesNL, mapIndentTail]
  | cons c r ih =>
    by_cases hc : c = '\n'
    · subst hc
      cases r with
      | nil => simp [indentRest, linesNL, mapIndentTail]
      | cons d r' =>
        rw [show indentRest n ('\n' :: d :: r') =
          '\n' :: (List.replicate n ' ' ++ indentRest n (d :: r')) from rfl]
        rw [linesNL_cons_nl]
        rw [linesNL_append_noNL _ _ (noNLB_replicate n), ih]
        rw [linesNL_cons_nl]
        rw [show ([] :: linesNL (d :: r')).headI = [] from rfl]
        cases hl : linesNL (d :: r') with
        | nil => exact absurd hl (linesNL_ne_nil _)
        | cons l0 ls0 =>
          have hne := linesNL_head_or_tail d r'
          rw [hl] at hne
          simp only [List.headI, List.tail] at hne ⊢
          rw [mapIndentTail_cons n l0 ls0 hne]
    · rw [indentRest_cons_ne n c r hc]
      rw [linesNL_cons_ne c _ hc, ih, linesNL_cons_ne c r hc]
      simp

/-- C10, counterexample: the claim's uniform behaviour — indent every line of
`linesNL`, including the empty final line after a trailing newline — turns
`"a\nb\n"` into `"  a\n  b\n  "`, but the repository's own test
(`TestIndent/TrailingNewline`, helpers_test.go) requires `Indent(2)` on
`"a\nb\n"` to produce `"  a\n  b\n"`: the final empty line is not indented. -/
theorem claim_C10_counterexample :
    Indent 2 (("a\nb\n").toList) = ("  a\n  b\n").toList ∧
    indentClaimC10 2 (("a\nb\n").toList) = ("  a\n  b\n  ").toList ∧
    Indent 2 (("a\nb\n").toList) ≠ indentClaimC10 2 (("a\nb\n").toList) :=
  ⟨rfl, rfl, by decide⟩

/-- C10 (amended): `Indent(n)` prepends `n` spaces before every line of the
text including the first — but when the text ends with a trailing newline,
the empty final line after that newline is left unindented (per
`TestIndent/TrailingNewline`), rather than receiving an extra indent as the
claim states.  Formally: the lines of `Indent n s` are the first line of `s`
indented, followed by the remaining lines each indented except a final empty
one. -/
theorem claim_C10 (n : Nat) (s : Str) :
    linesNL (Indent n s) =
      (List.replicate n ' ' ++ (linesNL s).headI) :: mapIndentTail n (linesNL s).tail := by
  unfold Indent
  rw [linesNL_append_noNL _ _ (noNLB_replicate n), indentRest_lines n s]
  simp

end Pretty
